import Mathlib

/-!
BigInt: decimal big integers (src/BigInt.c)

A shallow embedding of `src/BigInt.c` and the proofs of its contract.

Conventions of the embedding.

* A digit buffer (`unsigned char*` obtained from `malloc`) is a `List Nat`
  whose length is the size of the allocation.  Every read and every write
  is bounds-checked: an access outside the allocation is
  `Fault.out_of_bounds`.
* `malloc` returns memory with indeterminate content; the content of a
  fresh allocation is the parameter `junk : Nat → Nat` (cell `i` of the
  new buffer holds `junk i` until it is written).
* `assert` is active (the file defines `_DEBUG`, not `NDEBUG`): a failing
  assertion is `Fault.assertion`.
* `int` is 32 bits wide and its arithmetic wraps (`wrap32`); `unsigned int`
  digit counts are `Nat` (a count of `2^32` digits is out of reach).
* The only unbounded loop (`BigInt_add_digits`) runs on fuel, one more
  than the size of the buffer; `Fault.out_of_fuel` is what an exhausted
  fuel returns.
-/

namespace BigIntC

/-- What stops a run: an access outside an allocation, a failing `assert`,
or an exhausted loop fuel. -/
inductive Fault where
  | out_of_bounds
  | assertion
  | out_of_fuel
deriving DecidableEq

/-- Modelled from the spec: the struct `BigInt` of the header `BigInt.h`,
which is not among the sources.  Its fields are the ones `BigInt.c` uses:
`is_negative` (the sign flag, only ever 0 or 1), `digits` (the buffer,
least-significant digit first), `num_digits` (digits in use) and
`num_allocated_digits` (the recorded capacity). -/
structure BigInt where
  is_negative : Bool
  digits : List Nat
  num_digits : Nat
  num_allocated_digits : Nat
deriving DecidableEq

/-- The macro `MAX(x, y) ((x) > (y) ? (x) : (y))`. -/
def MAX (x y : Nat) : Nat := if x > y then x else y

/-- A 32-bit `int` result: the representative of `x` modulo `2^32` in
`[-2^31, 2^31)`. -/
def wrap32 (x : Int) : Int := (x + 2147483648) % 4294967296 - 2147483648

/-- The read `buf[i]`. -/
def readDigit (buf : List Nat) (i : Nat) : Except Fault Nat :=
  match buf[i]? with
  | some d => .ok d
  | none => .error .out_of_bounds

/-- The write `buf[i] = d`. -/
def writeDigit (buf : List Nat) (i : Nat) (d : Nat) : Except Fault (List Nat) :=
  if i < buf.length then .ok (buf.set i d) else .error .out_of_bounds

/-! ## Construction -/

/-- The value of `floor(log10(v))` for `v ≥ 1`, by repeated division
(`floor_log10_fuel v v` is `Nat.log 10 v`, see `floor_log10_eq_log`). -/
def floor_log10_fuel : Nat → Nat → Nat
  | 0, _ => 0
  | fuel + 1, v => if v < 10 then 0 else floor_log10_fuel fuel (v / 10) + 1

/-- The expression `floor(log10(value)) + 1` stored into the unsigned
`num_digits`.  For `value ≥ 1` it is the number of decimal digits.
`log10(0)` is minus infinity and the `log10` of a negative number is not a
number; the source expects 0 there (its "special case for 0" tests
`num_digits == 0`), and so does the embedding. -/
def log10_plus_one (value : Int) : Nat :=
  if 0 < value then floor_log10_fuel value.toNat value.toNat + 1 else 0

/-- The loop `for (i = 0; i < num_digits; i++) { digits[i] = value % 10;
value /= 10; }` of `BigInt_construct`, as the list of the digits written.
`%` and `/` are the truncating ones of C; the store into an
`unsigned char` reduces modulo 256. -/
def construct_loop : Nat → Int → List Nat
  | 0, _ => []
  | n + 1, value => ((Int.tmod value 10) % 256).toNat :: construct_loop n (Int.tdiv value 10)

/-- The function `BigInt* BigInt_construct(int value)`. -/
def BigInt_construct (value : Int) : BigInt :=
  let is_negative := decide (value < 0)
  let value := if value < 0 then wrap32 (value * -1) else value
  let num_digits := log10_plus_one value
  let num_digits := if num_digits = 0 then 1 else num_digits
  { is_negative := is_negative
    digits := construct_loop num_digits value
    num_digits := num_digits
    num_allocated_digits := num_digits }

/-! ## Comparison -/

/-- The loop `for (i = a->num_digits - 1; i >= 0; --i)` of
`BigInt_compare_digits`; `k` is `i + 1`. -/
def compare_digits_loop (a b : List Nat) : Nat → Except Fault Int
  | 0 => .ok 0
  | k + 1 =>
    match readDigit a k, readDigit b k with
    | .ok x, .ok y =>
      if x > y then .ok 1
      else if x < y then .ok (-1)
      else compare_digits_loop a b k
    | .error e, _ => .error e
    | .ok _, .error e => .error e

/-- The function `int BigInt_compare_digits(const BigInt* a, const BigInt* b)`. -/
def BigInt_compare_digits (a b : BigInt) : Except Fault Int :=
  if a.num_digits > b.num_digits then .ok 1
  else if a.num_digits < b.num_digits then .ok (-1)
  else compare_digits_loop a.digits b.digits a.num_digits

/-- The operand `x->num_digits > 0 || x->digits[0] > 0` of the guard of
`BigInt_compare`; the digit is read only when the count is 0. -/
def compare_guard_operand (x : BigInt) : Except Fault Bool :=
  if x.num_digits > 0 then .ok true
  else
    match readDigit x.digits 0 with
    | .ok d => .ok (decide (d > 0))
    | .error e => .error e

/-- The guard `a->num_digits > 0 || a->digits[0] > 0 || b->num_digits > 0
|| b->digits[0] > 0` of `BigInt_compare`, evaluated left to right. -/
def compare_guard (a b : BigInt) : Except Fault Bool :=
  match compare_guard_operand a with
  | .ok true => .ok true
  | .ok false => compare_guard_operand b
  | .error e => .error e

/-- The function `int BigInt_compare(const BigInt* a, const BigInt* b)`. -/
def BigInt_compare (a b : BigInt) : Except Fault Int :=
  match compare_guard a b with
  | .error e => .error e
  | .ok g =>
    if g && a.is_negative && !b.is_negative then .ok (-1)
    else if g && !a.is_negative && b.is_negative then .ok 1
    else if a.is_negative then BigInt_compare_digits b a
    else BigInt_compare_digits a b

/-! ## Storage growth -/

/-- The function `void BigInt_ensure_digits(BigInt* big_int, unsigned int digits_needed)`.
The `memcpy` of `num_digits` bytes reads that many cells of the old buffer
and writes that many of the new one, which has `digits_needed` cells. -/
def BigInt_ensure_digits (junk : Nat → Nat) (big_int : BigInt) (digits_needed : Nat) :
    Except Fault BigInt :=
  if big_int.num_allocated_digits < digits_needed then
    if big_int.num_digits ≤ big_int.digits.length ∧ big_int.num_digits ≤ digits_needed then
      .ok { big_int with
            digits := (List.range digits_needed).map
              (fun i => if i < big_int.num_digits then big_int.digits.getD i 0 else junk i)
            num_allocated_digits := digits_needed }
    else .error .out_of_bounds
  else .ok big_int

/-! ## Magnitude addition -/

/-- The block "Append another digit if necessary" of the loop of
`BigInt_add_digits`: `if (i == big_int->num_digits) { ++big_int->num_digits;
big_int->digits[i] = 0; }`. -/
def append_digit (i : Nat) (big_int : BigInt) : Except Fault BigInt :=
  if i = big_int.num_digits then
    match writeDigit big_int.digits i 0 with
    | .ok buf => .ok { big_int with num_digits := big_int.num_digits + 1, digits := buf }
    | .error e => .error e
  else .ok big_int

/-- The loop `for (i = 0; i < addend->num_digits || carry > 0; ++i)` of
`BigInt_add_digits`, from the state `(i, carry, big_int)`. -/
def add_digits_loop (addend : BigInt) : Nat → Nat → Nat → BigInt → Except Fault BigInt
  | 0, i, carry, big_int =>
    if i < addend.num_digits ∨ carry > 0 then .error .out_of_fuel else .ok big_int
  | fuel + 1, i, carry, big_int =>
    if i < addend.num_digits ∨ carry > 0 then
      match append_digit i big_int with
      | .error e => .error e
      | .ok grown =>
        match (if i < addend.num_digits then readDigit addend.digits i else .ok 0),
              readDigit grown.digits i with
        | .ok addend_digit, .ok own_digit =>
          let total := own_digit + addend_digit + carry
          match writeDigit grown.digits i (total % 10) with
          | .ok buf =>
            add_digits_loop addend fuel (i + 1) (if total ≥ 10 then 1 else 0)
              { grown with digits := buf }
          | .error e => .error e
        | .error e, _ => .error e
        | .ok _, .error e => .error e
    else .ok big_int

/-- The function `void BigInt_add_digits(BigInt* big_int, const BigInt* addend)`. -/
def BigInt_add_digits (junk : Nat → Nat) (big_int addend : BigInt) : Except Fault BigInt :=
  let digits_needed := MAX big_int.num_digits addend.num_digits + 1
  match BigInt_ensure_digits junk big_int digits_needed with
  | .error e => .error e
  | .ok big_int => add_digits_loop addend (big_int.digits.length + 1) 0 0 big_int

/-! ## Magnitude subtraction -/

/-- The loop `for (i = 0; i < greater_int_num_digits; ++i)` of
`BigInt_subtract_digits`, from the state `(i, carry, digits, num_digits)`
with `k` iterations to go.  `receiver_greater` says which of
`greater_int_digits` and `smaller_int_digits` is the receiver's own
buffer `buf`, the one the loop writes; `other` is the buffer of
`to_subtract`.  The result is the buffer, `num_digits` and the carry. -/
def subtract_digits_loop (receiver_greater : Bool) (other : List Nat)
    (smaller_int_num_digits : Nat) :
    Nat → Nat → Int → List Nat → Nat → Except Fault (List Nat × Nat × Int)
  | 0, _, carry, buf, num_digits => .ok (buf, num_digits, carry)
  | k + 1, i, carry, buf, num_digits =>
    match readDigit (if receiver_greater then buf else other) i,
          (if i < smaller_int_num_digits then
             readDigit (if receiver_greater then other else buf) i
           else .ok 0) with
    | .ok g, .ok s =>
      let new_digit : Int := (g : Int) - (s : Int) + carry
      -- Carry 10 from the next digit if necessary
      let carry : Int := if new_digit < 0 then -1 else 0
      let new_digit : Int := if new_digit < 0 then new_digit + 10 else new_digit
      if new_digit ≥ 0 then
        match writeDigit buf i (new_digit % 256).toNat with
        | .ok buf =>
          subtract_digits_loop receiver_greater other smaller_int_num_digits k (i + 1) carry buf
            (if new_digit ≠ 0 then i + 1 else num_digits)
        | .error e => .error e
      else .error .assertion
    | .error e, _ => .error e
    | .ok _, .error e => .error e

/-- The function `void BigInt_subtract_digits(BigInt* big_int, const BigInt* to_subtract)`. -/
def BigInt_subtract_digits (junk : Nat → Nat) (big_int to_subtract : BigInt) :
    Except Fault BigInt :=
  let digits_needed := MAX big_int.num_digits to_subtract.num_digits + 1
  match BigInt_ensure_digits junk big_int digits_needed with
  | .error e => .error e
  | .ok big_int =>
    match BigInt_compare_digits big_int to_subtract with
    | .error e => .error e
    | .ok c =>
      let receiver_greater := decide (c > 0)
      let greater_int_num_digits :=
        if receiver_greater then big_int.num_digits else to_subtract.num_digits
      let smaller_int_num_digits :=
        if receiver_greater then to_subtract.num_digits else big_int.num_digits
      match subtract_digits_loop receiver_greater to_subtract.digits smaller_int_num_digits
              greater_int_num_digits 0 0 big_int.digits 1 with
      | .error e => .error e
      | .ok (buf, num_digits, carry) =>
        if carry = 0 then .ok { big_int with digits := buf, num_digits := num_digits }
        else .error .assertion

/-! ## Signed addition and subtraction -/

/-- The function `void BigInt_add(BigInt* big_int, const BigInt* addend)`. -/
def BigInt_add (junk : Nat → Nat) (big_int addend : BigInt) : Except Fault BigInt :=
  if big_int.is_negative = addend.is_negative then
    BigInt_add_digits junk big_int addend
  else
    match BigInt_compare_digits big_int addend with
    | .error e => .error e
    | .ok c =>
      let result_is_negative := if c > 0 then big_int.is_negative else addend.is_negative
      match BigInt_subtract_digits junk big_int addend with
      | .error e => .error e
      | .ok r => .ok { r with is_negative := result_is_negative }

/-- The function `void BigInt_subtract(BigInt* big_int, const BigInt* to_subtract)`. -/
def BigInt_subtract (junk : Nat → Nat) (big_int to_subtract : BigInt) : Except Fault BigInt :=
  match BigInt_compare big_int to_subtract with
  | .error e => .error e
  | .ok c =>
    let result_is_negative := if c > 0 then false else true
    match (if big_int.is_negative = to_subtract.is_negative then
             BigInt_subtract_digits junk big_int to_subtract
           else BigInt_add_digits junk big_int to_subtract) with
    | .error e => .error e
    | .ok r => .ok { r with is_negative := result_is_negative }

/-! ## Conversion back to `int` -/

/-- The loop `for (i = 0; i < num_digits; i++)` of `BigInt_to_int`, from the
state `(i, value, tens_multiplier)` with `k` iterations to go. -/
def to_int_loop (digits : List Nat) : Nat → Nat → Int → Int → Except Fault Int
  | 0, _, value, _ => .ok value
  | k + 1, i, value, tens_multiplier =>
    match readDigit digits i with
    | .ok d =>
      to_int_loop digits k (i + 1) (wrap32 (value + wrap32 ((d : Int) * tens_multiplier)))
        (wrap32 (tens_multiplier * 10))
    | .error e => .error e

/-- The function `int BigInt_to_int(const BigInt* big_int)`. -/
def BigInt_to_int (big_int : BigInt) : Except Fault Int :=
  match to_int_loop big_int.digits big_int.num_digits 0 0 1 with
  | .ok value => .ok (if big_int.is_negative then wrap32 (value * -1) else value)
  | .error e => .error e

/-! ## The integer a BigInt denotes, and its well-formedness -/

/-- The sum of `buf[i] * 10^i` over `i < n`. -/
def digitSum (buf : List Nat) : Nat → Nat
  | 0 => 0
  | n + 1 => digitSum buf n + buf.getD n 0 * 10 ^ n

/-- The magnitude: the sum of `digits[i] * 10^i` over the used digits. -/
def BigInt.magnitude (x : BigInt) : Nat := digitSum x.digits x.num_digits

/-- The exact integer denoted: the sign applied to the magnitude. -/
def BigInt.value (x : BigInt) : Int :=
  if x.is_negative then -(x.magnitude : Int) else (x.magnitude : Int)

/-- Every used digit is in 0..9. -/
def DigitsInRange (x : BigInt) : Prop := ∀ i, i < x.num_digits → x.digits.getD i 0 ≤ 9

/-- No leading zero digit unless `num_digits = 1`. -/
def NoLeadingZero (x : BigInt) : Prop :=
  x.num_digits = 1 ∨ x.digits.getD (x.num_digits - 1) 0 ≠ 0

/-- The storage invariant: `capacity ≥ digit_count ≥ 1`, the recorded
capacity being the size of the buffer. -/
def StorageOk (x : BigInt) : Prop :=
  1 ≤ x.num_digits ∧ x.num_digits ≤ x.num_allocated_digits ∧
    x.digits.length = x.num_allocated_digits

/-- A well-formed BigInt: storage invariant, digits in 0..9, canonical
form.  The sign flag is free (also on zero). -/
def WellFormed (x : BigInt) : Prop := StorageOk x ∧ DigitsInRange x ∧ NoLeadingZero x

instance (x : BigInt) : Decidable (DigitsInRange x) := by
  unfold DigitsInRange; infer_instance

instance (x : BigInt) : Decidable (NoLeadingZero x) := by
  unfold NoLeadingZero; infer_instance

instance (x : BigInt) : Decidable (StorageOk x) := by
  unfold StorageOk; infer_instance

instance (x : BigInt) : Decidable (WellFormed x) := by
  unfold WellFormed; infer_instance

/-- The sign of an integer as -1, 0 or 1. -/
def signOf (z : Int) : Int := if z > 0 then 1 else if z < 0 then -1 else 0

/-- The native `int` range. -/
def InIntRange (z : Int) : Prop := -2147483648 ≤ z ∧ z ≤ 2147483647

/-- The values `BigInt_construct` is defined on: every `int` but the
minimum, whose negation overflows. -/
def ValidInt (z : Int) : Prop := -2147483648 < z ∧ z ≤ 2147483647

/-- The number of decimal digits of `m`: `floor(log10(m)) + 1`, and 1 for
`m = 0`. -/
def decimalLength (m : Nat) : Nat := if m = 0 then 1 else Nat.log 10 m + 1

/-- The invariant of the loop of `BigInt_subtract_digits` at index `i`, for
the digits `G0` of the minuend (`gn` of them) and `S0` of the subtrahend
(`sn` of them) as they are at entry: the digits written so far are the
difference of the low parts up to the borrow, the digits still to be read
are those at entry, and `nd` is one more than the index of the highest
non-zero digit written (1 when there is none). -/
def SubtractInv (receiver_greater : Bool) (other G0 S0 : List Nat) (gn sn : Nat)
    (i : Nat) (carry : Int) (buf : List Nat) (nd : Nat) : Prop :=
  (carry = 0 ∨ carry = -1) ∧
  (digitSum buf i : Int)
    = (digitSum G0 i : Int) - (digitSum S0 (min i sn) : Int) - carry * 10 ^ i ∧
  (∀ j, i ≤ j → j < gn → (if receiver_greater then buf else other).getD j 0 = G0.getD j 0) ∧
  (∀ j, i ≤ j → j < sn → (if receiver_greater then other else buf).getD j 0 = S0.getD j 0) ∧
  (∀ j, j < i → buf.getD j 0 ≤ 9) ∧
  1 ≤ nd ∧ nd ≤ max i 1 ∧ (∀ j, nd ≤ j → j < i → buf.getD j 0 = 0) ∧
  (nd = 1 ∨ buf.getD (nd - 1) 0 ≠ 0)

instance (z : Int) : Decidable (InIntRange z) := by
  unfold InIntRange; infer_instance

instance (z : Int) : Decidable (ValidInt z) := by
  unfold ValidInt; infer_instance

/-! ## Buffers and digit sums -/

theorem readDigit_of_lt {buf : List Nat} {i : Nat} (h : i < buf.length) :
    readDigit buf i = .ok (buf.getD i 0) := by
  simp [readDigit, List.getD_eq_getElem?_getD, List.getElem?_eq_getElem h]

theorem writeDigit_of_lt {buf : List Nat} {i : Nat} (d : Nat) (h : i < buf.length) :
    writeDigit buf i d = .ok (buf.set i d) := by
  simp [writeDigit, h]

theorem getD_set_self {buf : List Nat} {i : Nat} (d : Nat) (h : i < buf.length) :
    (buf.set i d).getD i 0 = d := by
  simp [List.getD_eq_getElem?_getD, List.getElem?_set, h]

theorem getD_set_of_ne {buf : List Nat} {i j : Nat} (d : Nat) (h : i ≠ j) :
    (buf.set i d).getD j 0 = buf.getD j 0 := by
  simp [List.getD_eq_getElem?_getD, List.getElem?_set, h]

theorem digitSum_congr {a b : List Nat} :
    ∀ n : Nat, (∀ i, i < n → a.getD i 0 = b.getD i 0) → digitSum a n = digitSum b n
  | 0, _ => rfl
  | n + 1, h => by
    simp only [digitSum]
    rw [digitSum_congr n (fun i hi => h i (Nat.lt_succ_of_lt hi)), h n (Nat.lt_succ_self n)]

theorem digitSum_set_of_le {buf : List Nat} {i : Nat} (d : Nat) {n : Nat} (h : n ≤ i) :
    digitSum (buf.set i d) n = digitSum buf n :=
  digitSum_congr n (fun j hj => getD_set_of_ne d (by omega))

theorem digitSum_lt {buf : List Nat} :
    ∀ n : Nat, (∀ i, i < n → buf.getD i 0 ≤ 9) → digitSum buf n < 10 ^ n
  | 0, _ => by simp [digitSum]
  | n + 1, h => by
    have ih := digitSum_lt n (fun i hi => h i (Nat.lt_succ_of_lt hi))
    have hd := h n (Nat.lt_succ_self n)
    have hm : buf.getD n 0 * 10 ^ n ≤ 9 * 10 ^ n := Nat.mul_le_mul_right _ hd
    simp only [digitSum, pow_succ]
    omega

theorem digitSum_ge_of_top {buf : List Nat} {n : Nat} (h : buf.getD n 0 ≠ 0) :
    10 ^ n ≤ digitSum buf (n + 1) := by
  have hm : 1 * 10 ^ n ≤ buf.getD n 0 * 10 ^ n := Nat.mul_le_mul_right _ (by omega)
  simp only [digitSum]
  omega

theorem digitSum_mono {buf : List Nat} {m n : Nat} (h : m ≤ n) :
    digitSum buf m ≤ digitSum buf n := by
  induction n with
  | zero => simp [Nat.le_zero.mp h]
  | succ n ih =>
    rcases Nat.eq_or_lt_of_le h with h1 | h1
    · rw [h1]
    · have := ih (Nat.lt_succ_iff.mp h1)
      simp only [digitSum]
      omega

/-- Digits that are zero from `m` up add nothing. -/
theorem digitSum_eq_of_zero {buf : List Nat} {m : Nat} :
    ∀ n : Nat, m ≤ n → (∀ i, m ≤ i → i < n → buf.getD i 0 = 0) →
      digitSum buf n = digitSum buf m
  | 0, h, _ => by rw [Nat.le_zero.mp h]
  | n + 1, h, hz => by
    rcases Nat.eq_or_lt_of_le h with h1 | h1
    · rw [h1]
    · have hmn : m ≤ n := Nat.lt_succ_iff.mp h1
      have ih := digitSum_eq_of_zero n hmn (fun i hi hin => hz i hi (Nat.lt_succ_of_lt hin))
      simp only [digitSum, hz n hmn (Nat.lt_succ_self n), ih]
      omega

/-! ## Conversion back to `int` -/

theorem wrap32_modEq (x : Int) : wrap32 x ≡ x [ZMOD 4294967296] := by
  unfold wrap32 Int.ModEq
  omega

theorem wrap32_congr {a b : Int} (h : a ≡ b [ZMOD 4294967296]) : wrap32 a = wrap32 b := by
  unfold Int.ModEq at h
  unfold wrap32
  omega

theorem wrap32_of_range {x : Int} (h : InIntRange x) : wrap32 x = x := by
  unfold InIntRange at h
  unfold wrap32
  omega

theorem wrap32_range (x : Int) : InIntRange (wrap32 x) := by
  unfold InIntRange wrap32
  omega

theorem to_int_loop_eq (digits : List Nat) :
    ∀ (k i : Nat) (value tens_multiplier : Int), i + k ≤ digits.length →
      value = wrap32 (digitSum digits i) →
      tens_multiplier ≡ ((10 ^ i : Nat) : Int) [ZMOD 4294967296] →
      to_int_loop digits k i value tens_multiplier = .ok (wrap32 (digitSum digits (i + k)))
  | 0, i, value, _, _, hv, _ => by simp [to_int_loop, hv]
  | k + 1, i, value, tens_multiplier, hlen, hv, ht => by
    have hi : i < digits.length := by omega
    rw [to_int_loop, readDigit_of_lt hi]
    simp only []
    have h := to_int_loop_eq digits k (i + 1)
      (wrap32 (value + wrap32 ((digits.getD i 0 : Int) * tens_multiplier)))
      (wrap32 (tens_multiplier * 10)) (by omega) ?_ ?_
    · have hik : i + 1 + k = i + (k + 1) := by omega
      rw [h, hik]
    · apply wrap32_congr
      have h1 : value ≡ ((digitSum digits i : Nat) : Int) [ZMOD 4294967296] := by
        rw [hv]; exact wrap32_modEq _
      have h2 := (wrap32_modEq ((digits.getD i 0 : Int) * tens_multiplier)).trans
        (Int.ModEq.mul (Int.ModEq.refl (digits.getD i 0 : Int)) ht)
      have h3 := Int.ModEq.add h1 h2
      simpa [digitSum] using h3
    · have h2 := (wrap32_modEq (tens_multiplier * 10)).trans
        (Int.ModEq.mul ht (Int.ModEq.refl (10 : Int)))
      simpa [pow_succ] using h2

/-- The function `BigInt_to_int` returns the denoted integer reduced to 32 bits. -/
theorem to_int_eq_wrap32 (x : BigInt) (h : x.num_digits ≤ x.digits.length) :
    BigInt_to_int x = .ok (wrap32 x.value) := by
  have h0 := to_int_loop_eq x.digits x.num_digits 0 0 1 (by omega)
    (by simp [digitSum, wrap32]) (by simp)
  rw [BigInt_to_int, h0]
  simp only [Nat.zero_add, BigInt.value, BigInt.magnitude]
  by_cases hneg : x.is_negative = true
  · have h1 := Int.ModEq.mul (wrap32_modEq ((digitSum x.digits x.num_digits : Nat) : Int))
      (Int.ModEq.refl (-1 : Int))
    rw [Int.mul_neg_one ((digitSum x.digits x.num_digits : Nat) : Int)] at h1
    rw [if_pos hneg, if_pos hneg, wrap32_congr h1]
  · rw [if_neg hneg, if_neg hneg]

/-- The function `BigInt_to_int` returns the denoted integer when it fits an `int`. -/
theorem to_int_eq_value (x : BigInt) (h : x.num_digits ≤ x.digits.length)
    (hr : InIntRange x.value) : BigInt_to_int x = .ok x.value := by
  rw [to_int_eq_wrap32 x h, wrap32_of_range hr]

/-! ## Construction -/

theorem floor_log10_fuel_eq_log :
    ∀ (fuel v : Nat), v ≤ fuel → floor_log10_fuel fuel v = Nat.log 10 v
  | 0, v, h => by
    have : v = 0 := Nat.le_zero.mp h
    simp [floor_log10_fuel, this]
  | fuel + 1, v, h => by
    rw [floor_log10_fuel]
    by_cases hv : v < 10
    · simp [hv, Nat.log_of_lt hv]
    · have hle : 10 ≤ v := Nat.le_of_not_lt hv
      rw [if_neg hv, floor_log10_fuel_eq_log fuel (v / 10) (by omega),
        Nat.log_of_one_lt_of_le (by decide) hle]

theorem floor_log10_eq_log (v : Nat) : floor_log10_fuel v v = Nat.log 10 v :=
  floor_log10_fuel_eq_log v v (Nat.le_refl v)

theorem log10_plus_one_natCast (m : Nat) :
    log10_plus_one (m : Int) = if m = 0 then 0 else Nat.log 10 m + 1 := by
  unfold log10_plus_one
  by_cases hm : m = 0
  · simp [hm]
  · have : (0 : Int) < (m : Int) := by omega
    simp [hm, this, floor_log10_eq_log]

theorem construct_loop_length : ∀ (n : Nat) (value : Int), (construct_loop n value).length = n
  | 0, _ => rfl
  | n + 1, value => by simp [construct_loop, construct_loop_length n]

theorem construct_loop_getD :
    ∀ (n m i : Nat), i < n → (construct_loop n (m : Int)).getD i 0 = m / 10 ^ i % 10
  | 0, _, _, h => absurd h (Nat.not_lt_zero _)
  | n + 1, m, 0, _ => by
    have h1 : Int.tmod (m : Int) 10 = ((m % 10 : Nat) : Int) := (Int.ofNat_tmod m 10).symm
    have h2 : ((m % 10 : Nat) : Int) % 256 = ((m % 10 : Nat) : Int) := by omega
    simp only [construct_loop, List.getD_cons_zero, h1, h2, pow_zero, Nat.div_one]
    exact Int.toNat_natCast _
  | n + 1, m, i + 1, h => by
    have h1 : Int.tdiv (m : Int) 10 = ((m / 10 : Nat) : Int) := (Int.ofNat_tdiv m 10).symm
    have ih := construct_loop_getD n (m / 10) i (by omega)
    simp only [construct_loop, h1, List.getD_cons_succ, ih]
    rw [Nat.div_div_eq_div_mul, pow_succ, Nat.mul_comm]

theorem digitSum_of_decimal {buf : List Nat} {m : Nat} :
    ∀ n : Nat, (∀ i, i < n → buf.getD i 0 = m / 10 ^ i % 10) → digitSum buf n = m % 10 ^ n
  | 0, _ => by simp [digitSum, Nat.mod_one]
  | n + 1, h => by
    have ih := digitSum_of_decimal n (fun i hi => h i (Nat.lt_succ_of_lt hi))
    rw [digitSum, ih, h n (Nat.lt_succ_self n), Nat.mod_pow_succ, Nat.mul_comm]

theorem decimalLength_pos (m : Nat) : 1 ≤ decimalLength m := by
  unfold decimalLength; split <;> omega

theorem lt_pow_decimalLength (m : Nat) : m < 10 ^ decimalLength m := by
  unfold decimalLength
  by_cases hm : m = 0
  · simp [hm]
  · simp only [hm, if_false]
    exact Nat.lt_pow_succ_log_self (by decide) m

theorem pow_decimalLength_le {m : Nat} (hm : m ≠ 0) : 10 ^ (decimalLength m - 1) ≤ m := by
  unfold decimalLength
  simp only [hm, if_false, Nat.add_sub_cancel]
  exact Nat.pow_log_le_self 10 hm

/-- What `BigInt_construct` builds from a valid `int`: the sign flag, the
decimal length, a buffer of exactly that size, the decimal digits. -/
theorem construct_fields (v : Int) (hv : ValidInt v) :
    (BigInt_construct v).is_negative = decide (v < 0) ∧
    (BigInt_construct v).num_digits = decimalLength v.natAbs ∧
    (BigInt_construct v).num_allocated_digits = decimalLength v.natAbs ∧
    (BigInt_construct v).digits.length = decimalLength v.natAbs ∧
    ∀ i, i < decimalLength v.natAbs →
      (BigInt_construct v).digits.getD i 0 = v.natAbs / 10 ^ i % 10 := by
  obtain ⟨hlo, hhi⟩ := hv
  have habs : (if v < 0 then wrap32 (v * -1) else v) = (v.natAbs : Int) := by
    by_cases hneg : v < 0
    · rw [if_pos hneg, wrap32_of_range (by unfold InIntRange; omega)]
      omega
    · rw [if_neg hneg]
      omega
  have hn : (if log10_plus_one (v.natAbs : Int) = 0 then 1 else log10_plus_one (v.natAbs : Int))
      = decimalLength v.natAbs := by
    rw [log10_plus_one_natCast]
    unfold decimalLength
    by_cases hm : v.natAbs = 0 <;> simp [hm]
  simp only [BigInt_construct, habs, hn, construct_loop_length, true_and]
  exact fun i hi => construct_loop_getD _ _ i hi

theorem construct_magnitude (v : Int) (hv : ValidInt v) :
    (BigInt_construct v).magnitude = v.natAbs := by
  obtain ⟨_, hn, _, _, hd⟩ := construct_fields v hv
  rw [BigInt.magnitude, hn, digitSum_of_decimal _ hd]
  exact Nat.mod_eq_of_lt (lt_pow_decimalLength _)

theorem construct_value (v : Int) (hv : ValidInt v) : (BigInt_construct v).value = v := by
  obtain ⟨hs, _⟩ := construct_fields v hv
  rw [BigInt.value, construct_magnitude v hv, hs]
  by_cases hneg : v < 0
  · simp only [hneg, decide_True, if_true]; omega
  · simp only [hneg, decide_False]; simp; omega

theorem construct_wellFormed (v : Int) (hv : ValidInt v) : WellFormed (BigInt_construct v) := by
  obtain ⟨_, hn, ha, hl, hd⟩ := construct_fields v hv
  have hpos := decimalLength_pos v.natAbs
  refine ⟨⟨by omega, by omega, by omega⟩, ?_, ?_⟩
  · intro i hi
    rw [hd i (by omega)]
    omega
  · unfold NoLeadingZero
    by_cases hm : v.natAbs = 0
    · left; rw [hn]; simp [decimalLength, hm]
    · right
      rw [hn, hd _ (by omega)]
      have h1 := pow_decimalLength_le hm
      have h2 := lt_pow_decimalLength v.natAbs
      have hp : 0 < 10 ^ (decimalLength v.natAbs - 1) := pow_pos (by decide) _
      have h3 : 1 ≤ v.natAbs / 10 ^ (decimalLength v.natAbs - 1) :=
        (Nat.le_div_iff_mul_le hp).mpr (by omega)
      have h4 : v.natAbs / 10 ^ (decimalLength v.natAbs - 1) < 10 := by
        apply Nat.div_lt_of_lt_mul
        have : 10 ^ (decimalLength v.natAbs - 1) * 10 = 10 ^ decimalLength v.natAbs := by
          rw [← pow_succ]; congr 1; omega
        omega
      omega

/-! ## Magnitude comparison -/

theorem compare_digits_loop_eq {a b : List Nat} :
    ∀ k : Nat, k ≤ a.length → k ≤ b.length →
      (∀ i, i < k → a.getD i 0 ≤ 9) → (∀ i, i < k → b.getD i 0 ≤ 9) →
      compare_digits_loop a b k = .ok (signOf ((digitSum a k : Int) - (digitSum b k : Int)))
  | 0, _, _, _, _ => by simp [compare_digits_loop, digitSum, signOf]
  | k + 1, ha, hb, hda, hdb => by
    have hla := digitSum_lt k (fun i hi => hda i (Nat.lt_succ_of_lt hi))
    have hlb := digitSum_lt k (fun i hi => hdb i (Nat.lt_succ_of_lt hi))
    have ih := compare_digits_loop_eq k (by omega) (by omega)
      (fun i hi => hda i (Nat.lt_succ_of_lt hi)) (fun i hi => hdb i (Nat.lt_succ_of_lt hi))
    rw [compare_digits_loop, readDigit_of_lt (by omega : k < a.length),
      readDigit_of_lt (by omega : k < b.length)]
    simp only [digitSum, Nat.cast_add]
    by_cases hgt : a.getD k 0 > b.getD k 0
    · have hm : (b.getD k 0 + 1) * 10 ^ k ≤ a.getD k 0 * 10 ^ k := Nat.mul_le_mul_right _ hgt
      rw [Nat.add_mul, Nat.one_mul] at hm
      have hpos : ((digitSum a k + a.getD k 0 * 10 ^ k : Nat) : Int)
          - ((digitSum b k + b.getD k 0 * 10 ^ k : Nat) : Int) > 0 := by omega
      rw [Nat.cast_add, Nat.cast_add] at hpos
      simp only [hgt, if_true, signOf, hpos]
    · by_cases hlt : a.getD k 0 < b.getD k 0
      · have hm : (a.getD k 0 + 1) * 10 ^ k ≤ b.getD k 0 * 10 ^ k := Nat.mul_le_mul_right _ hlt
        rw [Nat.add_mul, Nat.one_mul] at hm
        have hneg : ((digitSum a k + a.getD k 0 * 10 ^ k : Nat) : Int)
            - ((digitSum b k + b.getD k 0 * 10 ^ k : Nat) : Int) < 0 := by omega
        have hnp : ¬ (((digitSum a k + a.getD k 0 * 10 ^ k : Nat) : Int)
            - ((digitSum b k + b.getD k 0 * 10 ^ k : Nat) : Int) > 0) := by omega
        rw [Nat.cast_add, Nat.cast_add] at hneg hnp
        simp only [hgt, hlt, if_true, if_false, signOf, hneg, hnp]
      · have heq : a.getD k 0 = b.getD k 0 := by omega
        have hz : ((digitSum a k + a.getD k 0 * 10 ^ k : Nat) : Int)
            - ((digitSum b k + b.getD k 0 * 10 ^ k : Nat) : Int)
            = (digitSum a k : Int) - (digitSum b k : Int) := by
          rw [heq]; omega
        rw [Nat.cast_add, Nat.cast_add] at hz
        simp only [hgt, hlt, if_false, ih, hz]

/-- A canonical magnitude with `n` digits is at least `10^(n-1)` when `n > 1`. -/
theorem magnitude_ge_of_noLeadingZero {x : BigInt} (hc : NoLeadingZero x)
    (hn : 1 < x.num_digits) : 10 ^ (x.num_digits - 1) ≤ x.magnitude := by
  rcases hc with h1 | h1
  · omega
  · have h := digitSum_ge_of_top h1
    have e : x.num_digits - 1 + 1 = x.num_digits := by omega
    rw [e] at h
    exact h

theorem magnitude_lt_pow {x : BigInt} (hd : DigitsInRange x) :
    x.magnitude < 10 ^ x.num_digits := digitSum_lt _ hd

theorem magnitude_lt_of_num_digits_lt {a b : BigInt} (hda : DigitsInRange a)
    (hcb : NoLeadingZero b) (h : a.num_digits < b.num_digits) (ha : 1 ≤ a.num_digits) :
    a.magnitude < b.magnitude := by
  have h1 := magnitude_lt_pow hda
  have h2 := magnitude_ge_of_noLeadingZero hcb (by omega)
  have h3 : 10 ^ a.num_digits ≤ 10 ^ (b.num_digits - 1) :=
    Nat.pow_le_pow_right (by decide) (by omega)
  omega

/-- The function `BigInt_compare_digits` on canonical operands is the sign of the
difference of the magnitudes. -/
theorem compare_digits_eq {a b : BigInt} (ha : WellFormed a) (hb : WellFormed b) :
    BigInt_compare_digits a b
      = .ok (signOf ((a.magnitude : Int) - (b.magnitude : Int))) := by
  obtain ⟨⟨ha1, ha2, ha3⟩, hda, hca⟩ := ha
  obtain ⟨⟨hb1, hb2, hb3⟩, hdb, hcb⟩ := hb
  unfold BigInt_compare_digits
  by_cases hgt : a.num_digits > b.num_digits
  · have := magnitude_lt_of_num_digits_lt hdb hca hgt hb1
    have hpos : (a.magnitude : Int) - (b.magnitude : Int) > 0 := by omega
    simp only [hgt, if_true, signOf, hpos]
  · by_cases hlt : a.num_digits < b.num_digits
    · have := magnitude_lt_of_num_digits_lt hda hcb hlt ha1
      have hneg : (a.magnitude : Int) - (b.magnitude : Int) < 0 := by omega
      have hnp : ¬ ((a.magnitude : Int) - (b.magnitude : Int) > 0) := by omega
      simp only [hgt, hlt, if_true, if_false, signOf, hneg, hnp]
    · have heq : b.num_digits = a.num_digits := by omega
      have hdb' : ∀ i, i < a.num_digits → b.digits.getD i 0 ≤ 9 := by
        rw [← heq]; exact hdb
      rw [if_neg hgt, if_neg hlt,
        compare_digits_loop_eq a.num_digits (by omega) (by omega) hda hdb']
      simp only [BigInt.magnitude, heq]

/-! ## Signed comparison -/

theorem signOf_of_pos {z : Int} (h : 0 < z) : signOf z = 1 := by
  simp [signOf, h]

theorem signOf_of_neg {z : Int} (h : z < 0) : signOf z = -1 := by
  have h1 : ¬ (z > 0) := by omega
  simp [signOf, h, h1]

theorem signOf_zero : signOf 0 = 0 := by
  simp [signOf]

theorem compare_guard_of_pos {a : BigInt} (b : BigInt) (ha : 0 < a.num_digits) :
    compare_guard a b = .ok true := by
  simp [compare_guard, compare_guard_operand, ha]

/-- The function `BigInt_compare` on well-formed operands, case by case on the flags. -/
theorem compare_of_wellFormed {a b : BigInt} (ha : WellFormed a) (hb : WellFormed b) :
    BigInt_compare a b = .ok
      (if a.is_negative = true ∧ b.is_negative = false then -1
       else if a.is_negative = false ∧ b.is_negative = true then 1
       else if a.is_negative = true then signOf ((b.magnitude : Int) - (a.magnitude : Int))
       else signOf ((a.magnitude : Int) - (b.magnitude : Int))) := by
  have hpos : 0 < a.num_digits := ha.1.1
  rw [BigInt_compare, compare_guard_of_pos b hpos]
  simp only [compare_digits_eq ha hb, compare_digits_eq hb ha]
  cases a.is_negative <;> cases b.is_negative <;> simp

theorem value_eq_of_nonneg {x : BigInt} (h : x.is_negative = false) :
    x.value = (x.magnitude : Int) := by
  simp [BigInt.value, h]

theorem value_eq_of_neg {x : BigInt} (h : x.is_negative = true) :
    x.value = -(x.magnitude : Int) := by
  simp [BigInt.value, h]

/-- The function `BigInt_compare` is the sign of the difference of the denoted integers,
for well-formed operands whose zero carries no negative flag. -/
theorem compare_eq_signOf {a b : BigInt} (ha : WellFormed a) (hb : WellFormed b)
    (hza : a.magnitude = 0 → a.is_negative = false)
    (hzb : b.magnitude = 0 → b.is_negative = false) :
    BigInt_compare a b = .ok (signOf (a.value - b.value)) := by
  rw [compare_of_wellFormed ha hb]
  congr 1
  cases hna : a.is_negative <;> cases hnb : b.is_negative
  · simp [value_eq_of_nonneg hna, value_eq_of_nonneg hnb]
  · have hb0 : b.magnitude ≠ 0 := fun h => by simp [hzb h] at hnb
    have hs : signOf ((a.magnitude : Int) - -(b.magnitude : Int)) = 1 :=
      signOf_of_pos (by omega)
    rw [value_eq_of_nonneg hna, value_eq_of_neg hnb, hs]
    simp
  · have ha0 : a.magnitude ≠ 0 := fun h => by simp [hza h] at hna
    have hs : signOf (-(a.magnitude : Int) - (b.magnitude : Int)) = -1 :=
      signOf_of_neg (by omega)
    rw [value_eq_of_neg hna, value_eq_of_nonneg hnb, hs]
    simp
  · have : -(a.magnitude : Int) - -(b.magnitude : Int)
        = (b.magnitude : Int) - (a.magnitude : Int) := by omega
    rw [value_eq_of_neg hna, value_eq_of_neg hnb, this]
    simp

/-! ## Storage growth -/

theorem getD_map_range (f : Nat → Nat) {n i : Nat} (h : i < n) :
    ((List.range n).map f).getD i 0 = f i := by
  simp [List.getD_eq_getElem?_getD, List.getElem?_range, h]

/-- The function `BigInt_ensure_digits` returns, keeps the flag, the count and the used
digits, and leaves a buffer of the recorded capacity, at least `n`. -/
theorem ensure_digits_spec (junk : Nat → Nat) {x : BigInt} (hx : StorageOk x) (n : Nat) :
    ∃ r, BigInt_ensure_digits junk x n = .ok r ∧
      r.is_negative = x.is_negative ∧ r.num_digits = x.num_digits ∧
      (∀ i, i < x.num_digits → r.digits.getD i 0 = x.digits.getD i 0) ∧
      r.num_allocated_digits = (if x.num_allocated_digits < n then n
        else x.num_allocated_digits) ∧
      r.digits.length = r.num_allocated_digits := by
  obtain ⟨h1, h2, h3⟩ := hx
  unfold BigInt_ensure_digits
  by_cases hlt : x.num_allocated_digits < n
  · have hb : x.num_digits ≤ x.digits.length ∧ x.num_digits ≤ n := ⟨by omega, by omega⟩
    rw [if_pos hlt, if_pos hb]
    refine ⟨_, rfl, rfl, rfl, ?_, ?_, ?_⟩
    · intro i hi
      simp only []
      rw [getD_map_range _ (by omega : i < n), if_pos hi]
    · simp [hlt]
    · simp
  · rw [if_neg hlt]
    exact ⟨x, rfl, rfl, rfl, fun _ _ => rfl, by simp [hlt], h3⟩

theorem digitSum_set {buf : List Nat} {i : Nat} (d : Nat) (hi : i < buf.length) :
    ∀ n : Nat, i < n →
      digitSum (buf.set i d) n + buf.getD i 0 * 10 ^ i = digitSum buf n + d * 10 ^ i
  | 0, h => absurd h (Nat.not_lt_zero _)
  | n + 1, h => by
    simp only [digitSum]
    rcases Nat.eq_or_lt_of_le (Nat.lt_succ_iff.mp h) with h1 | h1
    · subst h1
      rw [digitSum_set_of_le d (Nat.le_refl i), getD_set_self d hi]
      omega
    · have ih := digitSum_set d hi n h1
      rw [getD_set_of_ne d (by omega : i ≠ n)]
      omega

/-! ## Magnitude addition -/

theorem MAX_eq_max (x y : Nat) : MAX x y = max x y := by
  unfold MAX
  split <;> omega

theorem append_digit_spec (i : Nat) {x : BigInt}
    (hlen : x.num_digits < x.digits.length) (hd : DigitsInRange x) :
    ∃ g, append_digit i x = .ok g ∧
      g.is_negative = x.is_negative ∧ g.num_allocated_digits = x.num_allocated_digits ∧
      g.digits.length = x.digits.length ∧
      g.num_digits = (if i = x.num_digits then x.num_digits + 1 else x.num_digits) ∧
      g.magnitude = x.magnitude ∧ DigitsInRange g ∧
      (i = x.num_digits → g.digits.getD i 0 = 0) := by
  unfold append_digit
  by_cases hg : i = x.num_digits
  · have hil : i < x.digits.length := by omega
    rw [if_pos hg, writeDigit_of_lt 0 hil]
    refine ⟨_, rfl, rfl, rfl, by simp, by simp [hg], ?_, ?_, ?_⟩
    · simp only [BigInt.magnitude, digitSum]
      rw [← hg, digitSum_set_of_le 0 (Nat.le_refl i), getD_set_self 0 hil]
      omega
    · intro j hj
      simp only [] at hj ⊢
      by_cases hji : i = j
      · rw [← hji, getD_set_self 0 hil]; omega
      · rw [getD_set_of_ne 0 hji]; exact hd j (by omega)
    · intro _
      exact getD_set_self 0 hil
  · rw [if_neg hg]
    exact ⟨x, rfl, rfl, rfl, rfl, by simp [hg], rfl, hd, fun h => absurd h hg⟩

theorem add_digits_loop_done (addend : BigInt) {i carry : Nat} (x : BigInt)
    (h : ¬ (i < addend.num_digits ∨ carry > 0)) (fuel : Nat) :
    add_digits_loop addend fuel i carry x = .ok x := by
  cases fuel <;> rw [add_digits_loop, if_neg h]

theorem readDigit_error {buf : List Nat} {i : Nat} {e : Fault}
    (h : readDigit buf i = .error e) : e = .out_of_bounds := by
  unfold readDigit at h
  split at h
  · exact absurd h (by simp)
  · exact (Except.error.inj h).symm

theorem readDigit_ok_lt {buf : List Nat} {i d : Nat} (h : readDigit buf i = .ok d) :
    i < buf.length := by
  unfold readDigit at h
  split at h
  · rename_i hs
    by_contra hlt
    rw [List.getElem?_eq_none (by omega)] at hs
    exact absurd hs (by simp)
  · exact absurd h (by simp)

theorem writeDigit_error {buf : List Nat} {i d : Nat} {e : Fault}
    (h : writeDigit buf i d = .error e) : e = .out_of_bounds := by
  unfold writeDigit at h
  split at h
  · exact absurd h (by simp)
  · exact (Except.error.inj h).symm

theorem writeDigit_ok_length {buf buf1 : List Nat} {i d : Nat}
    (h : writeDigit buf i d = .ok buf1) : buf1.length = buf.length := by
  unfold writeDigit at h
  split at h
  · rw [← Except.ok.inj h]
    simp
  · exact absurd h (by simp)

theorem append_digit_error {i : Nat} {x : BigInt} {e : Fault}
    (h : append_digit i x = .error e) : e = .out_of_bounds := by
  unfold append_digit at h
  split at h
  · cases hw : writeDigit x.digits i 0 with
    | error e1 =>
      rw [hw] at h
      rw [← Except.error.inj h]
      exact writeDigit_error hw
    | ok buf =>
      rw [hw] at h
      exact absurd h (by simp)
  · exact absurd h (by simp)

theorem append_digit_length {i : Nat} {x g : BigInt} (h : append_digit i x = .ok g) :
    g.digits.length = x.digits.length := by
  unfold append_digit at h
  split at h
  · cases hw : writeDigit x.digits i 0 with
    | error e1 =>
      rw [hw] at h
      exact absurd h (by simp)
    | ok buf =>
      rw [hw] at h
      rw [← Except.ok.inj h]
      exact writeDigit_ok_length hw
  · rw [← Except.ok.inj h]

/-- The fuel of the loop of `BigInt_add_digits` is never what stops it: an
iteration at an index outside the buffer faults, so a fuel of one more than
the size of the buffer is not exhausted. -/
theorem add_digits_loop_fuel (b : BigInt) :
    ∀ (fuel i c : Nat) (x : BigInt), i ≤ x.digits.length → x.digits.length + 1 ≤ fuel + i →
      add_digits_loop b fuel i c x ≠ .error .out_of_fuel
  | 0, i, c, x, h1, h2 => by omega
  | fuel + 1, i, c, x, h1, h2 => by
    rw [add_digits_loop]
    by_cases hcond : i < b.num_digits ∨ c > 0
    · rw [if_pos hcond]
      cases hg : append_digit i x with
      | error e =>
        rw [append_digit_error hg]
        simp
      | ok g =>
        have hgl := append_digit_length hg
        simp only []
        cases hbd : (if i < b.num_digits then readDigit b.digits i else .ok 0) with
        | error e =>
          have he : e = .out_of_bounds := by
            split at hbd
            · exact readDigit_error hbd
            · exact absurd hbd (by simp)
          rw [he]
          simp
        | ok bd =>
          cases hown : readDigit g.digits i with
          | error e =>
            rw [readDigit_error hown]
            simp
          | ok own =>
            have hil := readDigit_ok_lt hown
            simp only [writeDigit_of_lt _ hil]
            exact add_digits_loop_fuel b fuel (i + 1) _ _
              (by simp only [List.length_set]; omega) (by simp only [List.length_set]; omega)
    · rw [if_neg hcond]
      simp

/-- The function `BigInt_add_digits` never stops for lack of fuel. -/
theorem add_digits_fuel (junk : Nat → Nat) (a b : BigInt) :
    BigInt_add_digits junk a b ≠ .error .out_of_fuel := by
  unfold BigInt_add_digits
  simp only []
  cases he : BigInt_ensure_digits junk a (MAX a.num_digits b.num_digits + 1) with
  | error e =>
    unfold BigInt_ensure_digits at he
    split at he
    · split at he
      · exact absurd he (by simp)
      · rw [← Except.error.inj he]
        simp
    · exact absurd he (by simp)
  | ok x =>
    exact add_digits_loop_fuel b _ 0 0 x (by omega) (by omega)

/-- One iteration of the loop of `BigInt_add_digits`, when it is entered. -/
theorem add_digits_loop_step (addend : BigInt) (fuel : Nat) {i carry : Nat} {x g : BigInt}
    (hc : i < addend.num_digits ∨ carry > 0) (hg : append_digit i x = .ok g)
    (hig : i < g.digits.length) (hb : addend.num_digits ≤ addend.digits.length) :
    add_digits_loop addend (fuel + 1) i carry x =
      add_digits_loop addend fuel (i + 1)
        (if g.digits.getD i 0 + (if i < addend.num_digits then addend.digits.getD i 0 else 0)
            + carry ≥ 10 then 1 else 0)
        { g with
          digits := g.digits.set i
            ((g.digits.getD i 0 + (if i < addend.num_digits then addend.digits.getD i 0 else 0)
              + carry) % 10) } := by
  rw [add_digits_loop, if_pos hc, hg]
  simp only []
  by_cases hib : i < addend.num_digits
  · rw [if_pos hib, readDigit_of_lt (by omega : i < addend.digits.length),
      readDigit_of_lt hig]
    simp only [writeDigit_of_lt _ hig, if_pos hib]
  · rw [if_neg hib, readDigit_of_lt hig]
    simp only [writeDigit_of_lt _ hig, if_neg hib]

theorem carry_arith (own bd c p : Nat) (h : own + bd + c ≤ 19) :
    own * p + bd * p + c * p
      = ((own + bd + c) % 10) * p + (if own + bd + c ≥ 10 then 1 else 0) * (p * 10) := by
  obtain ⟨d, q, ht, hd, hq⟩ : ∃ d q, own + bd + c = d + 10 * q ∧
      d = (own + bd + c) % 10 ∧ q = (if own + bd + c ≥ 10 then 1 else 0) :=
    ⟨_, _, by split <;> omega, rfl, rfl⟩
  rw [← hd, ← hq]
  calc own * p + bd * p + c * p = (own + bd + c) * p := by ring
    _ = (d + 10 * q) * p := by rw [ht]
    _ = d * p + q * (p * 10) := by ring

theorem digitSum_min_succ (b : List Nat) (i n : Nat) :
    digitSum b (min (i + 1) n)
      = digitSum b (min i n) + (if i < n then b.getD i 0 else 0) * 10 ^ i := by
  by_cases h : i < n
  · rw [if_pos h, Nat.min_eq_left (by omega : i + 1 ≤ n), Nat.min_eq_left (by omega : i ≤ n)]
    rfl
  · rw [if_neg h, Nat.min_eq_right (by omega : n ≤ i + 1), Nat.min_eq_right (by omega : n ≤ i)]
    omega

/-- The loop of `BigInt_add_digits` from any state that leaves room for the
carry: it returns, and adds the rest of the addend and the carry. -/
theorem add_digits_loop_spec (b : BigInt) (hbl : b.num_digits ≤ b.digits.length)
    (hbd : DigitsInRange b) :
    ∀ (fuel i c : Nat) (x : BigInt), c ≤ 1 → i ≤ x.num_digits →
      x.num_digits ≤ x.digits.length → x.digits.length + 1 ≤ fuel + i →
      (max x.num_digits b.num_digits + 1 ≤ x.digits.length ∨ (c = 0 ∧ b.num_digits ≤ i)) →
      DigitsInRange x →
      ∃ r, add_digits_loop b fuel i c x = .ok r ∧
        r.is_negative = x.is_negative ∧ r.num_allocated_digits = x.num_allocated_digits ∧
        r.digits.length = x.digits.length ∧
        r.magnitude + digitSum b.digits (min i b.num_digits)
          = x.magnitude + b.magnitude + c * 10 ^ i ∧
        DigitsInRange r ∧ r.num_digits ≤ r.digits.length ∧
        (r.num_digits = max x.num_digits b.num_digits ∨
          (r.num_digits = max x.num_digits b.num_digits + 1 ∧
            r.digits.getD (r.num_digits - 1) 0 ≠ 0))
  | 0, i, c, x, _, hi, hxl, hf, _, _ => by omega
  | fuel + 1, i, c, x, hc1, hi, hxl, hf, hroom, hxd => by
    by_cases hcond : i < b.num_digits ∨ c > 0
    · have hroom1 : max x.num_digits b.num_digits + 1 ≤ x.digits.length := by
        rcases hroom with h | ⟨h1, h2⟩
        · exact h
        · omega
      obtain ⟨g, hg, hgn, hga, hgl, hgnd, hgm, hgd, hg0⟩ :=
        append_digit_spec i (by omega) hxd
      have hig : i < g.num_digits := by rw [hgnd]; split <;> omega
      have higl : i < g.digits.length := by omega
      have hstep := add_digits_loop_step b fuel hcond hg higl hbl
      obtain ⟨own, hown⟩ : ∃ own, own = g.digits.getD i 0 := ⟨_, rfl⟩
      obtain ⟨bd, hbdef⟩ : ∃ bd, bd = (if i < b.num_digits then b.digits.getD i 0 else 0) :=
        ⟨_, rfl⟩
      rw [← hown, ← hbdef] at hstep
      have hown9 : own ≤ 9 := by rw [hown]; exact hgd i hig
      have hbd9 : bd ≤ 9 := by
        rw [hbdef]; split
        · exact hbd i (by assumption)
        · omega
      have harith := carry_arith own bd c (10 ^ i) (by omega)
      have hmin := digitSum_min_succ b.digits i b.num_digits
      rw [← hbdef] at hmin
      have hx1m : digitSum (g.digits.set i ((own + bd + c) % 10)) g.num_digits
          + g.digits.getD i 0 * 10 ^ i
          = digitSum g.digits g.num_digits + ((own + bd + c) % 10) * 10 ^ i :=
        digitSum_set _ higl _ hig
      rw [← hown] at hx1m
      have hx1d : DigitsInRange
          { g with digits := g.digits.set i ((own + bd + c) % 10) } := by
        intro j hj
        simp only [] at hj ⊢
        by_cases hji : i = j
        · rw [← hji, getD_set_self _ higl]; omega
        · rw [getD_set_of_ne _ hji]; exact hgd j hj
      have hnext : max g.num_digits b.num_digits + 1 ≤ g.digits.length ∨
          ((if own + bd + c ≥ 10 then 1 else 0) = 0 ∧ b.num_digits ≤ i + 1) := by
        by_cases hgrow : i = x.num_digits
        · by_cases hib : i < b.num_digits
          · left; rw [hgnd, if_pos hgrow]; omega
          · right
            have hown0 : own = 0 := by rw [hown]; exact hg0 hgrow
            have hbd0 : bd = 0 := by rw [hbdef, if_neg hib]
            have : ¬ (own + bd + c ≥ 10) := by omega
            exact ⟨by rw [if_neg this], by omega⟩
        · left; rw [hgnd, if_neg hgrow]; omega
      obtain ⟨r, hr, hrn, hra, hrl, hrm, hrd, hrnl, hrnd⟩ :=
        add_digits_loop_spec b hbl hbd fuel (i + 1) (if own + bd + c ≥ 10 then 1 else 0)
          { g with digits := g.digits.set i ((own + bd + c) % 10) }
          (by split <;> omega) hig
          (by simp only [List.length_set]; rw [hgnd]; split <;> omega)
          (by simp only [List.length_set]; omega)
          (by simp only [List.length_set]; exact hnext) hx1d
      simp only [List.length_set, BigInt.magnitude] at hrn hra hrl hrm hrnd
      refine ⟨r, by rw [hstep]; exact hr, by rw [hrn, hgn], by rw [hra, hga],
        by rw [hrl, hgl], ?_, hrd, hrnl, ?_⟩
      · simp only [BigInt.magnitude] at hgm ⊢
        rw [pow_succ] at hrm
        omega
      · by_cases hgrow : i = x.num_digits
        · by_cases hib : i < b.num_digits
          · rw [hgnd, if_pos hgrow] at hrnd
            have e : max (x.num_digits + 1) b.num_digits = max x.num_digits b.num_digits := by
              omega
            rw [e] at hrnd
            exact hrnd
          · right
            have hown0 : own = 0 := by rw [hown]; exact hg0 hgrow
            have hbd0 : bd = 0 := by rw [hbdef, if_neg hib]
            have hc : c = 1 := by omega
            have hdone : ¬ (i + 1 < b.num_digits ∨ (if own + bd + c ≥ 10 then 1 else 0) > 0) := by
              have : ¬ (own + bd + c ≥ 10) := by omega
              rw [if_neg this]; omega
            rw [add_digits_loop_done b _ hdone] at hr
            have hreq := Except.ok.inj hr
            rw [← hreq]
            simp only []
            rw [hgnd, if_pos hgrow]
            refine ⟨by omega, ?_⟩
            rw [Nat.add_sub_cancel, ← hgrow, getD_set_self _ higl, hown0, hbd0, hc]
            decide
        · rw [hgnd, if_neg hgrow] at hrnd
          exact hrnd
    · rw [add_digits_loop_done b x hcond]
      refine ⟨x, rfl, rfl, rfl, rfl, ?_, hxd, hxl, Or.inl (by omega)⟩
      have hc0 : c = 0 := by omega
      rw [Nat.min_eq_right (by omega : b.num_digits ≤ i), hc0]
      simp [BigInt.magnitude]

/-- A number with digits in 0..9 whose value reaches `10^(n-1)` has a
non-zero digit at `n - 1`. -/
theorem top_digit_ne_zero_of_ge {buf : List Nat} {n : Nat} (hn : 1 ≤ n)
    (hd : ∀ i, i < n → buf.getD i 0 ≤ 9) (hge : 10 ^ (n - 1) ≤ digitSum buf n) :
    buf.getD (n - 1) 0 ≠ 0 := by
  obtain ⟨m, rfl⟩ : ∃ m, n = m + 1 := ⟨n - 1, by omega⟩
  rw [Nat.add_sub_cancel] at hge ⊢
  intro h0
  have hlt := digitSum_lt m (fun i hi => hd i (by omega))
  rw [digitSum, h0] at hge
  omega

theorem magnitude_ensure_digits {x e : BigInt} (hn : e.num_digits = x.num_digits)
    (hd : ∀ i, i < x.num_digits → e.digits.getD i 0 = x.digits.getD i 0) :
    e.magnitude = x.magnitude := by
  rw [BigInt.magnitude, BigInt.magnitude, hn]
  exact digitSum_congr _ hd

/-- The function `BigInt_add_digits` returns and adds the magnitudes; the flag is kept,
the storage invariant and the digit range hold afterwards, and the count
is the larger of the two or one more, with a non-zero top digit. -/
theorem add_digits_spec (junk : Nat → Nat) {a b : BigInt} (ha : StorageOk a)
    (hda : DigitsInRange a) (hb : StorageOk b) (hdb : DigitsInRange b) :
    ∃ r, BigInt_add_digits junk a b = .ok r ∧
      r.is_negative = a.is_negative ∧
      r.magnitude = a.magnitude + b.magnitude ∧
      StorageOk r ∧ DigitsInRange r ∧
      (r.num_digits = max a.num_digits b.num_digits ∨
        (r.num_digits = max a.num_digits b.num_digits + 1 ∧
          r.digits.getD (r.num_digits - 1) 0 ≠ 0)) := by
  obtain ⟨e, he, hen, hend, hedig, hea, hel⟩ :=
    ensure_digits_spec junk ha (MAX a.num_digits b.num_digits + 1)
  have hem := magnitude_ensure_digits hend hedig
  have hed : DigitsInRange e := by
    intro i hi
    rw [hend] at hi
    rw [hedig i hi]
    exact hda i hi
  have hcap : max a.num_digits b.num_digits + 1 ≤ e.digits.length := by
    rw [hel, hea, MAX_eq_max]
    split <;> omega
  obtain ⟨hb1, hb2, hb3⟩ := hb
  obtain ⟨r, hr, hrn, hra, hrl, hrm, hrd, hrnl, hrnd⟩ :=
    add_digits_loop_spec b (by omega) hdb (e.digits.length + 1) 0 0 e
      (by omega) (by omega) (by rw [hend]; omega) (by omega)
      (Or.inl (by rw [hend]; exact hcap)) hed
  refine ⟨r, ?_, by rw [hrn, hen], ?_, ⟨?_, by omega, by omega⟩, hrd, ?_⟩
  · rw [BigInt_add_digits, he]
    exact hr
  · rw [hem] at hrm
    simpa [digitSum] using hrm
  · have := ha.1
    rw [hend] at hrnd
    omega
  · rw [hend] at hrnd
    exact hrnd

/-- Magnitude addition keeps the canonical form. -/
theorem noLeadingZero_of_add {a b r : BigInt} (ha : 1 ≤ a.num_digits) (hca : NoLeadingZero a)
    (hcb : NoLeadingZero b) (hrd : DigitsInRange r)
    (hrm : r.magnitude = a.magnitude + b.magnitude)
    (hrnd : r.num_digits = max a.num_digits b.num_digits ∨
      (r.num_digits = max a.num_digits b.num_digits + 1 ∧
        r.digits.getD (r.num_digits - 1) 0 ≠ 0)) :
    NoLeadingZero r := by
  rcases hrnd with h | ⟨_, h⟩
  · by_cases h1 : r.num_digits = 1
    · exact Or.inl h1
    · right
      apply top_digit_ne_zero_of_ge (by omega) hrd
      have hge : 10 ^ (r.num_digits - 1) ≤ a.magnitude ∨ 10 ^ (r.num_digits - 1) ≤ b.magnitude := by
        by_cases hab : b.num_digits ≤ a.num_digits
        · left
          have e : r.num_digits = a.num_digits := by omega
          rw [e]
          exact magnitude_ge_of_noLeadingZero hca (by omega)
        · right
          have e : r.num_digits = b.num_digits := by omega
          rw [e]
          exact magnitude_ge_of_noLeadingZero hcb (by omega)
      have : digitSum r.digits r.num_digits = a.magnitude + b.magnitude := hrm
      omega
  · exact Or.inr h

/-! ## Magnitude subtraction -/

/-- One iteration of the loop of `BigInt_subtract_digits` on digits in
0..9: the assertion `new_digit >= 0` holds and the digit is stored. -/
theorem subtract_digits_loop_step (rg : Bool) (other : List Nat) (sn k i : Nat) (carry : Int)
    (buf : List Nat) (nd : Nat) {g s : Nat}
    (hg : readDigit (if rg then buf else other) i = .ok g)
    (hs : (if i < sn then readDigit (if rg then other else buf) i else .ok 0) = .ok s)
    (hi : i < buf.length) (hg9 : g ≤ 9) (hs9 : s ≤ 9) (hc : carry = 0 ∨ carry = -1) :
    subtract_digits_loop rg other sn (k + 1) i carry buf nd =
      subtract_digits_loop rg other sn k (i + 1)
        (if (g : Int) - (s : Int) + carry < 0 then -1 else 0)
        (buf.set i (if (g : Int) - (s : Int) + carry < 0 then (g : Int) - (s : Int) + carry + 10
          else (g : Int) - (s : Int) + carry).toNat)
        (if (if (g : Int) - (s : Int) + carry < 0 then (g : Int) - (s : Int) + carry + 10
          else (g : Int) - (s : Int) + carry) ≠ 0 then i + 1 else nd) := by
  obtain ⟨d, hd⟩ : ∃ d : Int, d = (if (g : Int) - (s : Int) + carry < 0
      then (g : Int) - (s : Int) + carry + 10 else (g : Int) - (s : Int) + carry) := ⟨_, rfl⟩
  have hd0 : d ≥ 0 := by rw [hd]; split <;> omega
  have hd9 : d ≤ 9 := by rw [hd]; split <;> omega
  have hmod : d % 256 = d := by omega
  rw [subtract_digits_loop, hg, hs]
  simp only []
  rw [← hd, if_pos hd0, hmod, writeDigit_of_lt _ hi]

/-- The body of the loop of `BigInt_subtract_digits` keeps `SubtractInv`. -/
theorem subtractInv_step {rg : Bool} {other G0 S0 : List Nat} {gn sn i : Nat} {carry : Int}
    {buf : List Nat} {nd : Nat} (hinv : SubtractInv rg other G0 S0 gn sn i carry buf nd)
    (hi : i < buf.length) {g s : Nat} (hg : g = G0.getD i 0)
    (hs : s = (if i < sn then S0.getD i 0 else 0)) (hG9 : g ≤ 9) (hS9 : s ≤ 9) (d : Int)
    (hd : d = (if (g : Int) - (s : Int) + carry < 0 then (g : Int) - (s : Int) + carry + 10
      else (g : Int) - (s : Int) + carry)) :
    SubtractInv rg other G0 S0 gn sn (i + 1)
      (if (g : Int) - (s : Int) + carry < 0 then -1 else 0)
      (buf.set i d.toNat) (if d ≠ 0 then i + 1 else nd) := by
  unfold SubtractInv at hinv ⊢
  obtain ⟨hc, hval, hGa, hSa, h9, hnd1, hndi, hz, htop⟩ := hinv
  obtain ⟨c1, hc1⟩ : ∃ c1 : Int, c1 = (if (g : Int) - (s : Int) + carry < 0 then -1 else 0) :=
    ⟨_, rfl⟩
  rw [← hc1]
  have hd0 : d ≥ 0 := by rw [hd]; split <;> omega
  have hd9 : d ≤ 9 := by rw [hd]; split <;> omega
  have hkey : d + 10 * c1 = (g : Int) - (s : Int) + carry := by
    rw [hd, hc1]; split <;> omega
  have htn : (d.toNat : Int) = d := Int.toNat_of_nonneg hd0
  refine ⟨?_, ?_, ?_, ?_, ?_, ?_, ?_, ?_, ?_⟩
  · rw [hc1]; split
    · exact Or.inr rfl
    · exact Or.inl rfl
  · have h1 : digitSum (buf.set i d.toNat) (i + 1) = digitSum buf i + d.toNat * 10 ^ i := by
      rw [digitSum, digitSum_set_of_le _ (Nat.le_refl i), getD_set_self _ hi]
    have h2 : digitSum G0 (i + 1) = digitSum G0 i + g * 10 ^ i := by rw [digitSum, hg]
    have h3 := digitSum_min_succ S0 i sn
    rw [← hs] at h3
    rw [h1, h2, h3]
    push_cast
    rw [htn]
    linear_combination hval + (10 : Int) ^ i * hkey
  · intro j hj1 hj2
    have := hGa j (by omega) hj2
    cases rg
    · simpa using this
    · simp only [if_true] at this ⊢
      rw [getD_set_of_ne _ (by omega : i ≠ j)]
      exact this
  · intro j hj1 hj2
    have := hSa j (by omega) hj2
    cases rg
    · simp only [Bool.false_eq_true, if_false] at this ⊢
      rw [getD_set_of_ne _ (by omega : i ≠ j)]
      exact this
    · simpa using this
  · intro j hj
    by_cases hji : i = j
    · rw [← hji, getD_set_self _ hi]; omega
    · rw [getD_set_of_ne _ hji]; exact h9 j (by omega)
  · split <;> omega
  · split <;> omega
  · intro j hj1 hj2
    by_cases hdz : d ≠ 0
    · rw [if_pos hdz] at hj1; omega
    · rw [if_neg hdz] at hj1
      by_cases hji : i = j
      · rw [← hji, getD_set_self _ hi]
        have : d = 0 := by omega
        rw [this]; rfl
      · rw [getD_set_of_ne _ hji]; exact hz j hj1 (by omega)
  · by_cases hdz : d ≠ 0
    · rw [if_pos hdz]
      right
      rw [Nat.add_sub_cancel, getD_set_self _ hi]
      omega
    · rw [if_neg hdz]
      rcases htop with h | h
      · exact Or.inl h
      · by_cases hn1 : nd = 1
        · exact Or.inl hn1
        · right
          rw [getD_set_of_ne _ (by omega : i ≠ nd - 1)]
          exact h

/-- The loop of `BigInt_subtract_digits` returns from any state that
satisfies `SubtractInv`, with `SubtractInv` at its last index. -/
theorem subtract_digits_loop_spec (rg : Bool) (other G0 S0 : List Nat) {gn sn : Nat} (L : Nat)
    (hsg : sn ≤ gn) (hgL : gn ≤ L)
    (hoG : rg = false → gn ≤ other.length) (hoS : rg = true → sn ≤ other.length)
    (hG9 : ∀ j, j < gn → G0.getD j 0 ≤ 9) (hS9 : ∀ j, j < sn → S0.getD j 0 ≤ 9) :
    ∀ (k i : Nat) (carry : Int) (buf : List Nat) (nd : Nat), i + k = gn → buf.length = L →
      SubtractInv rg other G0 S0 gn sn i carry buf nd →
      ∃ buf1 nd1 carry1,
        subtract_digits_loop rg other sn k i carry buf nd = .ok (buf1, nd1, carry1) ∧
        buf1.length = L ∧ SubtractInv rg other G0 S0 gn sn gn carry1 buf1 nd1
  | 0, i, carry, buf, nd, hik, hL, hinv => by
    have e : i = gn := by omega
    rw [e] at hinv
    exact ⟨buf, nd, carry, rfl, hL, hinv⟩
  | k + 1, i, carry, buf, nd, hik, hL, hinv => by
    have hi : i < gn := by omega
    have hib : i < buf.length := by omega
    have hGa := hinv.2.2.1 i (Nat.le_refl i) hi
    have hgread : readDigit (if rg then buf else other) i = .ok (G0.getD i 0) := by
      rw [← hGa]
      apply readDigit_of_lt
      cases rg
      · simpa using Nat.lt_of_lt_of_le hi (hoG rfl)
      · simpa using hib
    have hsread : (if i < sn then readDigit (if rg then other else buf) i else .ok 0)
        = .ok (if i < sn then S0.getD i 0 else 0) := by
      by_cases his : i < sn
      · have hSa := hinv.2.2.2.1 i (Nat.le_refl i) his
        rw [if_pos his, if_pos his, ← hSa]
        apply readDigit_of_lt
        cases rg
        · simpa using hib
        · simpa using Nat.lt_of_lt_of_le his (hoS rfl)
      · rw [if_neg his, if_neg his]
    have hg9 : G0.getD i 0 ≤ 9 := hG9 i hi
    have hs9 : (if i < sn then S0.getD i 0 else 0) ≤ 9 := by
      split
      · exact hS9 i (by assumption)
      · omega
    rw [subtract_digits_loop_step rg other sn k i carry buf nd hgread hsread hib hg9 hs9 hinv.1]
    exact subtract_digits_loop_spec rg other G0 S0 L hsg hgL hoG hoS hG9 hS9 k (i + 1) _ _ _ (by omega)
      (by rw [List.length_set]; exact hL)
      (subtractInv_step hinv hib rfl rfl hg9 hs9 _ rfl)

/-- At the last index the invariant gives the difference, when the minuend
is the larger: no borrow is left and the trimmed digits denote it. -/
theorem subtractInv_final {rg : Bool} {other G0 S0 : List Nat} {gn sn : Nat} {carry : Int}
    {buf : List Nat} {nd : Nat} (hinv : SubtractInv rg other G0 S0 gn sn gn carry buf nd)
    (hsg : sn ≤ gn) (hgn : 1 ≤ gn) (hle : digitSum S0 sn ≤ digitSum G0 gn) :
    carry = 0 ∧ digitSum buf nd + digitSum S0 sn = digitSum G0 gn ∧
      1 ≤ nd ∧ nd ≤ gn ∧ (∀ j, j < nd → buf.getD j 0 ≤ 9) ∧
      (nd = 1 ∨ buf.getD (nd - 1) 0 ≠ 0) := by
  unfold SubtractInv at hinv
  obtain ⟨hc, hval, _, _, h9, hnd1, hndi, hz, htop⟩ := hinv
  rw [Nat.min_eq_right hsg] at hval
  have hlt := digitSum_lt gn h9
  have hlt' : (digitSum buf gn : Int) < 10 ^ gn := by exact_mod_cast hlt
  have hndg : nd ≤ gn := by omega
  have hc0 : carry = 0 := by
    rcases hc with h | h
    · exact h
    · rw [h] at hval
      omega
  rw [hc0] at hval
  refine ⟨hc0, ?_, hnd1, hndg, fun j hj => h9 j (by omega), htop⟩
  rw [← digitSum_eq_of_zero gn hndg hz]
  omega

theorem signOf_pos_iff (z : Int) : signOf z > 0 ↔ z > 0 := by
  unfold signOf
  split
  · simp [*]
  · split <;> simp [*]

theorem subtractInv_init (rg : Bool) (other G0 S0 buf : List Nat) (gn sn : Nat)
    (hG : (if rg then buf else other) = G0) (hS : (if rg then other else buf) = S0) :
    SubtractInv rg other G0 S0 gn sn 0 0 buf 1 := by
  unfold SubtractInv
  refine ⟨Or.inl rfl, by simp [digitSum], fun j _ _ => by rw [hG], fun j _ _ => by rw [hS],
    fun j hj => absurd hj (Nat.not_lt_zero _), Nat.le_refl 1, by simp, ?_, Or.inl rfl⟩
  intro j _ hj
  exact absurd hj (Nat.not_lt_zero _)

/-- The function `BigInt_ensure_digits` keeps a well-formed BigInt well-formed, with the
same magnitude and flag, in a buffer of at least `n` cells. -/
theorem ensure_digits_wellFormed (junk : Nat → Nat) {x : BigInt} (hx : WellFormed x) (n : Nat) :
    ∃ e, BigInt_ensure_digits junk x n = .ok e ∧ WellFormed e ∧
      e.is_negative = x.is_negative ∧ e.num_digits = x.num_digits ∧
      e.magnitude = x.magnitude ∧ n ≤ e.digits.length ∧
      e.num_allocated_digits = (if x.num_allocated_digits < n then n
        else x.num_allocated_digits) := by
  obtain ⟨hs, hd, hc⟩ := hx
  obtain ⟨e, he, hen, hend, hedig, hea, hel⟩ := ensure_digits_spec junk hs n
  obtain ⟨h1, h2, h3⟩ := hs
  refine ⟨e, he, ⟨⟨by omega, ?_, hel⟩, ?_, ?_⟩, hen, hend,
    magnitude_ensure_digits hend hedig, ?_, hea⟩
  · rw [hea, hend]; split <;> omega
  · intro i hi
    rw [hend] at hi
    rw [hedig i hi]
    exact hd i hi
  · unfold NoLeadingZero at hc ⊢
    rw [hend, hedig _ (by omega)]
    exact hc
  · rw [hel, hea]; split <;> omega

/-- The function `BigInt_subtract_digits` on well-formed operands returns the difference
of the magnitudes, larger minus smaller, in canonical form; both assertions
hold and the flag is kept. -/
theorem subtract_digits_spec (junk : Nat → Nat) {a b : BigInt} (ha : WellFormed a)
    (hb : WellFormed b) :
    ∃ r, BigInt_subtract_digits junk a b = .ok r ∧
      r.is_negative = a.is_negative ∧
      (b.magnitude ≤ a.magnitude → r.magnitude + b.magnitude = a.magnitude) ∧
      (a.magnitude ≤ b.magnitude → r.magnitude + a.magnitude = b.magnitude) ∧
      WellFormed r := by
  obtain ⟨e, he, hew, hen, hend, hem, hecap, hea⟩ :=
    ensure_digits_wellFormed junk ha (MAX a.num_digits b.num_digits + 1)
  rw [MAX_eq_max] at hecap
  have hcmp := compare_digits_eq hew hb
  obtain ⟨⟨he1, he2, he3⟩, hed, hec⟩ := hew
  obtain ⟨⟨hb1, hb2, hb3⟩, hbd, hbc⟩ := hb
  rw [BigInt_subtract_digits, he]
  simp only []
  rw [hcmp]
  simp only []
  by_cases hgt : b.magnitude < e.magnitude
  · have hdec : decide (signOf ((e.magnitude : Int) - (b.magnitude : Int)) > 0) = true := by
      rw [decide_eq_true_eq, signOf_pos_iff]; omega
    have hsg : b.num_digits ≤ e.num_digits := by
      by_contra hcon
      have := magnitude_lt_of_num_digits_lt hed hbc (by omega) he1
      omega
    rw [hdec]
    simp only [if_true]
    obtain ⟨buf1, nd1, carry1, hloop, hlen, hinv⟩ :=
      subtract_digits_loop_spec true b.digits e.digits b.digits e.digits.length hsg (by omega) (by simp) (fun _ => by omega)
        hed hbd e.num_digits 0 0 e.digits 1 (by omega) rfl
        (subtractInv_init true b.digits e.digits b.digits e.digits _ _ rfl rfl)
    obtain ⟨hc0, hval, hn1, hn2, h9, htop⟩ :=
      subtractInv_final hinv hsg he1 (Nat.le_of_lt hgt)
    rw [hloop]
    simp only [hc0, if_true]
    have hs1 : nd1 ≤ e.num_allocated_digits := by omega
    have hs2 : buf1.length = e.num_allocated_digits := by omega
    refine ⟨_, rfl, hen, ?_, ?_, ⟨⟨hn1, hs1, hs2⟩, h9, htop⟩⟩
    · intro _
      rw [← hem]
      exact hval
    · intro hle
      rw [← hem] at hle
      omega
  · have hdec : decide (signOf ((e.magnitude : Int) - (b.magnitude : Int)) > 0) = false := by
      rw [decide_eq_false_iff_not, signOf_pos_iff]; omega
    have hsg : e.num_digits ≤ b.num_digits := by
      by_contra hcon
      have := magnitude_lt_of_num_digits_lt hbd hec (by omega) hb1
      omega
    rw [hdec]
    simp only [Bool.false_eq_true, if_false]
    obtain ⟨buf1, nd1, carry1, hloop, hlen, hinv⟩ :=
      subtract_digits_loop_spec false b.digits b.digits e.digits e.digits.length hsg (by omega) (fun _ => by omega) (by simp)
        hbd hed b.num_digits 0 0 e.digits 1 (by omega) rfl
        (subtractInv_init false b.digits b.digits e.digits e.digits _ _ rfl rfl)
    obtain ⟨hc0, hval, hn1, hn2, h9, htop⟩ :=
      subtractInv_final hinv hsg hb1 (Nat.le_of_not_lt hgt)
    rw [hloop]
    simp only [hc0, if_true]
    have hs1 : nd1 ≤ e.num_allocated_digits := by omega
    have hs2 : buf1.length = e.num_allocated_digits := by omega
    refine ⟨_, rfl, hen, ?_, ?_, ⟨⟨hn1, hs1, hs2⟩, h9, htop⟩⟩
    · intro hle
      rw [← hem] at hle
      have : digitSum buf1 nd1 + e.magnitude = b.magnitude := hval
      show digitSum buf1 nd1 + b.magnitude = a.magnitude
      omega
    · intro _
      rw [← hem]
      exact hval

/-! ## Signed addition and subtraction -/

theorem value_of_flag_false {x : BigInt} {m : Nat} (hm : x.magnitude = m)
    (h : x.is_negative = false) : x.value = (m : Int) := by
  rw [value_eq_of_nonneg h, hm]

theorem value_of_flag_true {x : BigInt} {m : Nat} (hm : x.magnitude = m)
    (h : x.is_negative = true) : x.value = -(m : Int) := by
  rw [value_eq_of_neg h, hm]

theorem wellFormed_with_flag {r : BigInt} (h : WellFormed r) (s : Bool) :
    WellFormed { r with is_negative := s } := h

theorem magnitude_with_flag (r : BigInt) (s : Bool) :
    ({ r with is_negative := s } : BigInt).magnitude = r.magnitude := rfl

/-- The function `BigInt_add` on well-formed operands returns a well-formed receiver
denoting the sum; its flag is the common flag, or the flag of the operand
of larger magnitude (the addend's on a tie). -/
theorem add_spec (junk : Nat → Nat) {a b : BigInt} (ha : WellFormed a) (hb : WellFormed b) :
    ∃ r, BigInt_add junk a b = .ok r ∧ r.value = a.value + b.value ∧ WellFormed r ∧
      r.is_negative = (if a.is_negative = b.is_negative then a.is_negative
        else if b.magnitude < a.magnitude then a.is_negative else b.is_negative) := by
  unfold BigInt_add
  by_cases hsame : a.is_negative = b.is_negative
  · obtain ⟨r, hr, hrn, hrm, hrs, hrd, hrnd⟩ := add_digits_spec junk ha.1 ha.2.1 hb.1 hb.2.1
    rw [if_pos hsame, hr, if_pos hsame]
    refine ⟨r, rfl, ?_, ⟨hrs, hrd, noLeadingZero_of_add ha.1.1 ha.2.2 hb.2.2 hrd hrm hrnd⟩, hrn⟩
    cases hna : a.is_negative
    · rw [value_of_flag_false hrm (hrn.trans hna), value_eq_of_nonneg hna,
        value_eq_of_nonneg (hsame ▸ hna)]
      push_cast; ring
    · rw [value_of_flag_true hrm (hrn.trans hna), value_eq_of_neg hna,
        value_eq_of_neg (hsame ▸ hna)]
      push_cast; ring
  · obtain ⟨r, hr, _, hge, hle, hrw⟩ := subtract_digits_spec junk ha hb
    rw [if_neg hsame, compare_digits_eq ha hb, if_neg hsame]
    simp only []
    rw [hr]
    by_cases hgt : b.magnitude < a.magnitude
    · have hpos : signOf ((a.magnitude : Int) - (b.magnitude : Int)) > 0 := by
        rw [signOf_pos_iff]; omega
      have hm := hge (Nat.le_of_lt hgt)
      rw [if_pos hpos, if_pos hgt]
      refine ⟨_, rfl, ?_, wellFormed_with_flag hrw _, rfl⟩
      cases hna : a.is_negative <;> cases hnb : b.is_negative
      · exact absurd (hna.trans hnb.symm) hsame
      · rw [value_eq_of_nonneg hna, value_eq_of_neg hnb, value_eq_of_nonneg rfl,
          magnitude_with_flag]
        omega
      · rw [value_eq_of_neg hna, value_eq_of_nonneg hnb, value_eq_of_neg rfl,
          magnitude_with_flag]
        omega
      · exact absurd (hna.trans hnb.symm) hsame
    · have hnpos : ¬ (signOf ((a.magnitude : Int) - (b.magnitude : Int)) > 0) := by
        rw [signOf_pos_iff]; omega
      have hm := hle (Nat.le_of_not_lt hgt)
      rw [if_neg hnpos, if_neg hgt]
      refine ⟨_, rfl, ?_, wellFormed_with_flag hrw _, rfl⟩
      cases hna : a.is_negative <;> cases hnb : b.is_negative
      · exact absurd (hna.trans hnb.symm) hsame
      · rw [value_eq_of_nonneg hna, value_eq_of_neg hnb, value_eq_of_neg rfl,
          magnitude_with_flag]
        omega
      · rw [value_eq_of_neg hna, value_eq_of_nonneg hnb, value_eq_of_nonneg rfl,
          magnitude_with_flag]
        omega
      · exact absurd (hna.trans hnb.symm) hsame

theorem compare_of_flags {a b : BigInt} (ha : WellFormed a) (hb : WellFormed b) :
    (a.is_negative = false → b.is_negative = false →
      BigInt_compare a b = .ok (signOf ((a.magnitude : Int) - (b.magnitude : Int)))) ∧
    (a.is_negative = false → b.is_negative = true → BigInt_compare a b = .ok 1) ∧
    (a.is_negative = true → b.is_negative = false → BigInt_compare a b = .ok (-1)) ∧
    (a.is_negative = true → b.is_negative = true →
      BigInt_compare a b = .ok (signOf ((b.magnitude : Int) - (a.magnitude : Int)))) := by
  rw [compare_of_wellFormed ha hb]
  refine ⟨?_, ?_, ?_, ?_⟩ <;> intro h1 h2 <;> simp [h1, h2]

/-- The function `BigInt_subtract` on well-formed operands returns a well-formed receiver
denoting the difference. -/
theorem subtract_spec (junk : Nat → Nat) {a b : BigInt} (ha : WellFormed a)
    (hb : WellFormed b) :
    ∃ r, BigInt_subtract junk a b = .ok r ∧ r.value = a.value - b.value ∧ WellFormed r := by
  obtain ⟨rs, hrs, _, hge, hle, hrsw⟩ := subtract_digits_spec junk ha hb
  obtain ⟨ra, hra, _, hram, hras, hrad, hrand⟩ :=
    add_digits_spec junk ha.1 ha.2.1 hb.1 hb.2.1
  have hraw : WellFormed ra :=
    ⟨hras, hrad, noLeadingZero_of_add ha.1.1 ha.2.2 hb.2.2 hrad hram hrand⟩
  obtain ⟨hff, hft, htf, htt⟩ := compare_of_flags ha hb
  have hsame : ∀ s : Bool, (if s = s then BigInt_subtract_digits junk a b
      else BigInt_add_digits junk a b) = .ok rs := fun s => by rw [if_pos rfl, hrs]
  have hdiff : ∀ s t : Bool, s ≠ t → (if s = t then BigInt_subtract_digits junk a b
      else BigInt_add_digits junk a b) = .ok ra := fun s t h => by rw [if_neg h, hra]
  cases hna : a.is_negative <;> cases hnb : b.is_negative
  · rw [BigInt_subtract, hff hna hnb, hna, hnb, hsame]
    refine ⟨_, rfl, ?_, wellFormed_with_flag hrsw _⟩
    rw [value_eq_of_nonneg hna, value_eq_of_nonneg hnb]
    by_cases hgt : b.magnitude < a.magnitude
    · have hpos : signOf ((a.magnitude : Int) - (b.magnitude : Int)) > 0 := by
        rw [signOf_pos_iff]; omega
      have hm := hge (Nat.le_of_lt hgt)
      simp only [if_pos hpos]
      rw [value_eq_of_nonneg rfl, magnitude_with_flag]
      omega
    · have hnpos : ¬ (signOf ((a.magnitude : Int) - (b.magnitude : Int)) > 0) := by
        rw [signOf_pos_iff]; omega
      have hm := hle (Nat.le_of_not_lt hgt)
      simp only [if_neg hnpos]
      rw [value_eq_of_neg rfl, magnitude_with_flag]
      omega
  · rw [BigInt_subtract, hft hna hnb, hna, hnb, hdiff _ _ (by decide)]
    refine ⟨_, rfl, ?_, wellFormed_with_flag hraw _⟩
    rw [value_eq_of_nonneg hna, value_eq_of_neg hnb]
    simp only [show ((1 : Int) > 0) from by decide, if_true]
    rw [value_eq_of_nonneg rfl, magnitude_with_flag, hram]
    push_cast; ring
  · rw [BigInt_subtract, htf hna hnb, hna, hnb, hdiff _ _ (by decide)]
    refine ⟨_, rfl, ?_, wellFormed_with_flag hraw _⟩
    rw [value_eq_of_neg hna, value_eq_of_nonneg hnb]
    simp only [show ¬ ((-1 : Int) > 0) from by decide, if_false]
    rw [value_eq_of_neg rfl, magnitude_with_flag, hram]
    push_cast; ring
  · rw [BigInt_subtract, htt hna hnb, hna, hnb, hsame]
    refine ⟨_, rfl, ?_, wellFormed_with_flag hrsw _⟩
    rw [value_eq_of_neg hna, value_eq_of_neg hnb]
    by_cases hgt : a.magnitude < b.magnitude
    · have hpos : signOf ((b.magnitude : Int) - (a.magnitude : Int)) > 0 := by
        rw [signOf_pos_iff]; omega
      have hm := hle (Nat.le_of_lt hgt)
      simp only [if_pos hpos]
      rw [value_eq_of_nonneg rfl, magnitude_with_flag]
      omega
    · have hnpos : ¬ (signOf ((b.magnitude : Int) - (a.magnitude : Int)) > 0) := by
        rw [signOf_pos_iff]; omega
      have hm := hge (Nat.le_of_not_lt hgt)
      simp only [if_neg hnpos]
      rw [value_eq_of_neg rfl, magnitude_with_flag]
      omega

/-- A well-formed BigInt that denotes 0 is the single digit 0. -/
theorem single_zero_of_value_zero {r : BigInt} (hw : WellFormed r) (h0 : r.value = 0) :
    r.num_digits = 1 ∧ r.digits.getD 0 0 = 0 := by
  obtain ⟨⟨h1, _, _⟩, _, hc⟩ := hw
  have hm : r.magnitude = 0 := by
    unfold BigInt.value at h0
    split at h0 <;> omega
  have hn : r.num_digits = 1 := by
    by_contra hne
    have := magnitude_ge_of_noLeadingZero hc (by omega)
    have hp : 0 < 10 ^ (r.num_digits - 1) := pow_pos (by decide) _
    omega
  refine ⟨hn, ?_⟩
  rw [BigInt.magnitude, hn] at hm
  simpa [digitSum] using hm

/-- The function `BigInt_ensure_digits` keeps the storage invariant and the digit range. -/
theorem ensure_digits_invariant (junk : Nat → Nat) {x : BigInt} (hs : StorageOk x)
    (hd : DigitsInRange x) (n : Nat) :
    ∃ r, BigInt_ensure_digits junk x n = .ok r ∧ StorageOk r ∧ DigitsInRange r := by
  obtain ⟨r, hr, _, hnd, hdig, hcap, hlen⟩ := ensure_digits_spec junk hs n
  obtain ⟨h1, h2, _⟩ := hs
  refine ⟨r, hr, ⟨by omega, ?_, hlen⟩, ?_⟩
  · rw [hcap, hnd]; split <;> omega
  · intro i hi
    rw [hnd] at hi
    rw [hdig i hi]
    exact hd i hi

theorem value_zero_iff_magnitude_zero (x : BigInt) : x.value = 0 ↔ x.magnitude = 0 := by
  unfold BigInt.value
  split <;> omega

theorem signOf_eq_ite (z w : Int) :
    signOf (z - w) = (if z > w then 1 else if z < w then -1 else 0) := by
  unfold signOf
  by_cases h1 : z > w
  · have : z - w > 0 := by omega
    simp only [h1, this, if_true]
  · by_cases h2 : z < w
    · have h3 : ¬ (z - w > 0) := by omega
      have h4 : z - w < 0 := by omega
      simp only [h1, h2, h3, h4, if_true, if_false]
    · have h3 : ¬ (z - w > 0) := by omega
      have h4 : ¬ (z - w < 0) := by omega
      simp only [h1, h2, h3, h4, if_false]

/-! ## Antisymmetry of the comparisons -/

theorem compare_digits_loop_antisymm {a b : List Nat} :
    ∀ k : Nat, k ≤ a.length → k ≤ b.length →
      ∃ c : Int, compare_digits_loop a b k = .ok c ∧ compare_digits_loop b a k = .ok (-c) ∧
        (c = -1 ∨ c = 0 ∨ c = 1)
  | 0, _, _ => ⟨0, rfl, rfl, Or.inr (Or.inl rfl)⟩
  | k + 1, ha, hb => by
    obtain ⟨c, h1, h2, h3⟩ := compare_digits_loop_antisymm k (by omega : k ≤ a.length)
      (by omega : k ≤ b.length)
    rw [compare_digits_loop, compare_digits_loop, readDigit_of_lt (by omega : k < a.length),
      readDigit_of_lt (by omega : k < b.length)]
    simp only []
    by_cases hgt : a.getD k 0 > b.getD k 0
    · have h4 : ¬ (b.getD k 0 > a.getD k 0) := by omega
      have h5 : b.getD k 0 < a.getD k 0 := hgt
      refine ⟨1, by rw [if_pos hgt], by rw [if_neg h4, if_pos h5], Or.inr (Or.inr rfl)⟩
    · by_cases hlt : a.getD k 0 < b.getD k 0
      · have h4 : b.getD k 0 > a.getD k 0 := hlt
        refine ⟨-1, by rw [if_neg hgt, if_pos hlt], by rw [if_pos h4]; rfl, Or.inl rfl⟩
      · have h4 : ¬ (b.getD k 0 > a.getD k 0) := by omega
        have h5 : ¬ (b.getD k 0 < a.getD k 0) := by omega
        exact ⟨c, by rw [if_neg hgt, if_neg hlt, h1], by rw [if_neg h4, if_neg h5, h2], h3⟩

/-- The function `BigInt_compare_digits` is antisymmetric on operands whose used digits lie in
their buffers, whatever the digits. -/
theorem compare_digits_antisymm {a b : BigInt} (ha : a.num_digits ≤ a.digits.length)
    (hb : b.num_digits ≤ b.digits.length) :
    ∃ c : Int, BigInt_compare_digits a b = .ok c ∧ BigInt_compare_digits b a = .ok (-c) ∧
      (c = -1 ∨ c = 0 ∨ c = 1) := by
  unfold BigInt_compare_digits
  by_cases hgt : a.num_digits > b.num_digits
  · have h1 : ¬ (b.num_digits > a.num_digits) := by omega
    have h2 : b.num_digits < a.num_digits := hgt
    exact ⟨1, by rw [if_pos hgt], by rw [if_neg h1, if_pos h2], Or.inr (Or.inr rfl)⟩
  · by_cases hlt : a.num_digits < b.num_digits
    · have h1 : b.num_digits > a.num_digits := hlt
      exact ⟨-1, by rw [if_neg hgt, if_pos hlt], by rw [if_pos h1]; rfl, Or.inl rfl⟩
    · have h1 : ¬ (b.num_digits > a.num_digits) := by omega
      have h2 : ¬ (b.num_digits < a.num_digits) := by omega
      have heq : b.num_digits = a.num_digits := by omega
      obtain ⟨c, hc1, hc2, hc3⟩ := compare_digits_loop_antisymm (a := a.digits) (b := b.digits)
        a.num_digits ha (by omega)
      exact ⟨c, by rw [if_neg hgt, if_neg hlt, hc1], by rw [if_neg h1, if_neg h2, heq, hc2], hc3⟩

/-- The flag `BigInt_subtract` leaves: clear when `BigInt_compare` returned
a positive result, set otherwise. -/
theorem subtract_flag (junk : Nat → Nat) {a b : BigInt} (ha : WellFormed a)
    (hb : WellFormed b) :
    ∃ c r, BigInt_compare a b = .ok c ∧ BigInt_subtract junk a b = .ok r ∧
      r.is_negative = (if c > 0 then false else true) := by
  obtain ⟨r, hr, _, _⟩ := subtract_spec junk ha hb
  have hcmp := compare_of_wellFormed ha hb
  refine ⟨_, r, hcmp, hr, ?_⟩
  obtain ⟨rs, hrs, _⟩ := subtract_digits_spec junk ha hb
  obtain ⟨ra, hra, _⟩ := add_digits_spec junk ha.1 ha.2.1 hb.1 hb.2.1
  unfold BigInt_subtract at hr
  rw [hcmp] at hr
  simp only [] at hr
  by_cases hsame : a.is_negative = b.is_negative
  · rw [if_pos hsame, hrs] at hr
    rw [← Except.ok.inj hr]
  · rw [if_neg hsame, hra] at hr
    rw [← Except.ok.inj hr]

/-! ## Magnitude addition: iterations and indices -/

theorem append_digit_ok (i : Nat) {x : BigInt} (hlen : x.num_digits < x.digits.length) :
    ∃ g, append_digit i x = .ok g ∧ g.digits.length = x.digits.length ∧
      g.num_digits = (if i = x.num_digits then x.num_digits + 1 else x.num_digits) ∧
      (i = x.num_digits → g.digits.getD i 0 = 0) := by
  unfold append_digit
  by_cases hg : i = x.num_digits
  · have hil : i < x.digits.length := by omega
    rw [if_pos hg, writeDigit_of_lt 0 hil]
    exact ⟨_, rfl, by simp, by simp [hg], fun _ => getD_set_self 0 hil⟩
  · rw [if_neg hg]
    exact ⟨x, rfl, rfl, by simp [hg], fun h => absurd h hg⟩

/-- The loop of `BigInt_add_digits` with room for the carry, whatever the
digits: it returns within `max num_digits addend.num_digits + 1 - i`
iterations, and the count grows to at most that maximum plus one. -/
theorem add_digits_loop_bounds (b : BigInt) (hbl : b.num_digits ≤ b.digits.length) :
    ∀ (fuel i c : Nat) (x : BigInt), c ≤ 1 → i ≤ x.num_digits →
      x.num_digits ≤ x.digits.length →
      (max x.num_digits b.num_digits + 1 ≤ x.digits.length ∨ (c = 0 ∧ b.num_digits ≤ i)) →
      (max x.num_digits b.num_digits + 1 ≤ fuel + i ∨ (c = 0 ∧ b.num_digits ≤ i)) →
      ∃ r, add_digits_loop b fuel i c x = .ok r ∧
        r.num_digits ≤ max x.num_digits b.num_digits + 1 ∧ x.num_digits ≤ r.num_digits ∧
        r.digits.length = x.digits.length
  | 0, i, c, x, _, hi, hxl, _, hf => by
    have hdone : ¬ (i < b.num_digits ∨ c > 0) := by omega
    rw [add_digits_loop_done b x hdone]
    exact ⟨x, rfl, by omega, Nat.le_refl _, rfl⟩
  | fuel + 1, i, c, x, hc1, hi, hxl, hroom, hf => by
    by_cases hcond : i < b.num_digits ∨ c > 0
    · have hroom1 : max x.num_digits b.num_digits + 1 ≤ x.digits.length := by
        rcases hroom with h | ⟨h1, h2⟩
        · exact h
        · omega
      have hf1 : max x.num_digits b.num_digits + 1 ≤ fuel + 1 + i := by
        rcases hf with h | ⟨h1, h2⟩
        · exact h
        · omega
      obtain ⟨g, hg, hgl, hgnd, hg0⟩ := append_digit_ok i (by omega : x.num_digits < _)
      have hig : i < g.num_digits := by rw [hgnd]; split <;> omega
      have higl : i < g.digits.length := by omega
      rw [add_digits_loop_step b fuel hcond hg higl hbl]
      obtain ⟨own, hown⟩ : ∃ own, own = g.digits.getD i 0 := ⟨_, rfl⟩
      obtain ⟨bd, hbdef⟩ : ∃ bd, bd = (if i < b.num_digits then b.digits.getD i 0 else 0) :=
        ⟨_, rfl⟩
      rw [← hown, ← hbdef]
      have hterm : i = x.num_digits → ¬ (i < b.num_digits) →
          (if own + bd + c ≥ 10 then 1 else 0) = 0 ∧ b.num_digits ≤ i + 1 := by
        intro hgrow hib
        have hown0 : own = 0 := by rw [hown]; exact hg0 hgrow
        have hbd0 : bd = 0 := by rw [hbdef, if_neg hib]
        have : ¬ (own + bd + c ≥ 10) := by omega
        exact ⟨by rw [if_neg this], by omega⟩
      have hmax : ¬ (i = x.num_digits ∧ ¬ (i < b.num_digits)) →
          max g.num_digits b.num_digits = max x.num_digits b.num_digits := by
        intro h
        rw [hgnd]
        split <;> omega
      have hnext1 : max g.num_digits b.num_digits + 1 ≤ g.digits.length ∨
          ((if own + bd + c ≥ 10 then 1 else 0) = 0 ∧ b.num_digits ≤ i + 1) := by
        by_cases hcase : i = x.num_digits ∧ ¬ (i < b.num_digits)
        · exact Or.inr (hterm hcase.1 hcase.2)
        · left; rw [hmax hcase]; omega
      have hnext2 : max g.num_digits b.num_digits + 1 ≤ fuel + (i + 1) ∨
          ((if own + bd + c ≥ 10 then 1 else 0) = 0 ∧ b.num_digits ≤ i + 1) := by
        by_cases hcase : i = x.num_digits ∧ ¬ (i < b.num_digits)
        · exact Or.inr (hterm hcase.1 hcase.2)
        · left; rw [hmax hcase]; omega
      obtain ⟨r, hr, hr1, hr2, hr3⟩ :=
        add_digits_loop_bounds b hbl fuel (i + 1) (if own + bd + c ≥ 10 then 1 else 0)
          { g with digits := g.digits.set i ((own + bd + c) % 10) }
          (by split <;> omega) hig
          (by simp only [List.length_set]; rw [hgnd]; split <;> omega)
          (by simp only [List.length_set]; exact hnext1) hnext2
      simp only [List.length_set] at hr1 hr2 hr3
      refine ⟨r, hr, ?_, ?_, by rw [hr3, hgl]⟩
      · by_cases hcase : i = x.num_digits ∧ ¬ (i < b.num_digits)
        · obtain ⟨hc0, hbn⟩ := hterm hcase.1 hcase.2
          have hdone : ¬ (i + 1 < b.num_digits ∨ (if own + bd + c ≥ 10 then 1 else 0) > 0) := by
            rw [hc0]; omega
          rw [add_digits_loop_done b _ hdone] at hr
          rw [← Except.ok.inj hr]
          simp only []
          rw [hgnd, if_pos hcase.1]
          omega
        · rw [hmax hcase] at hr1
          exact hr1
      · have : x.num_digits ≤ g.num_digits := by rw [hgnd]; split <;> omega
        omega
    · rw [add_digits_loop_done b x hcond]
      exact ⟨x, rfl, by omega, Nat.le_refl _, rfl⟩

/-- More fuel does not change what the loop of `BigInt_add_digits` returns. -/
theorem add_digits_loop_fuel_mono (b : BigInt) :
    ∀ (fuel i c : Nat) (x r : BigInt), add_digits_loop b fuel i c x = .ok r →
      ∀ fuel1, fuel ≤ fuel1 → add_digits_loop b fuel1 i c x = .ok r
  | 0, i, c, x, r, h, fuel1, _ => by
    rw [add_digits_loop] at h
    by_cases hcond : i < b.num_digits ∨ c > 0
    · rw [if_pos hcond] at h
      exact absurd h (by simp)
    · rw [if_neg hcond] at h
      rw [add_digits_loop_done b x hcond, h]
  | fuel + 1, i, c, x, r, h, fuel1, hle => by
    obtain ⟨fuel2, rfl⟩ : ∃ fuel2, fuel1 = fuel2 + 1 := ⟨fuel1 - 1, by omega⟩
    rw [add_digits_loop] at h ⊢
    by_cases hcond : i < b.num_digits ∨ c > 0
    · rw [if_pos hcond] at h ⊢
      cases hg : append_digit i x with
      | error e =>
        rw [hg] at h
        exact absurd h (by simp)
      | ok g =>
        rw [hg] at h
        simp only [] at h ⊢
        cases hbd : (if i < b.num_digits then readDigit b.digits i else .ok 0) with
        | error e =>
          rw [hbd] at h
          exact absurd h (by simp)
        | ok bd =>
          rw [hbd] at h
          cases hown : readDigit g.digits i with
          | error e =>
            rw [hown] at h
            exact absurd h (by simp)
          | ok own =>
            rw [hown] at h
            simp only [] at h ⊢
            cases hw : writeDigit g.digits i ((own + bd + c) % 10) with
            | error e =>
              rw [hw] at h
              exact absurd h (by simp)
            | ok buf =>
              rw [hw] at h
              simp only [] at h ⊢
              exact add_digits_loop_fuel_mono b fuel (i + 1) _ _ r h fuel2 (by omega)
    · rw [if_neg hcond] at h ⊢
      exact h

theorem readDigit_take {l : List Nat} {n i d : Nat} (h : readDigit (l.take n) i = .ok d) :
    readDigit l i = .ok d := by
  have hlt := readDigit_ok_lt h
  rw [List.length_take] at hlt
  unfold readDigit at h ⊢
  rw [List.getElem?_take_of_lt (by omega)] at h
  exact h

theorem writeDigit_take {l buf2 : List Nat} {n i d : Nat}
    (h : writeDigit (l.take n) i d = .ok buf2) :
    writeDigit l i d = .ok (l.set i d) ∧ buf2 = (l.set i d).take n := by
  unfold writeDigit at h
  split at h
  · rename_i hlt
    rw [List.length_take] at hlt
    refine ⟨writeDigit_of_lt d (by omega), ?_⟩
    rw [← Except.ok.inj h, List.set_take]
  · exact absurd h (by simp)

theorem append_digit_take {i n : Nat} {x g2 : BigInt}
    (h : append_digit i { x with digits := x.digits.take n } = .ok g2) :
    ∃ g, append_digit i x = .ok g ∧ g2 = { g with digits := g.digits.take n } := by
  unfold append_digit at h ⊢
  simp only [] at h
  by_cases hi : i = x.num_digits
  · rw [if_pos hi] at h ⊢
    cases hw : writeDigit (x.digits.take n) i 0 with
    | error e =>
      rw [hw] at h
      exact absurd h (by simp)
    | ok buf2 =>
      rw [hw] at h
      obtain ⟨hwf, hbuf⟩ := writeDigit_take hw
      rw [hwf]
      refine ⟨_, rfl, ?_⟩
      rw [← Except.ok.inj h, hbuf]
  · rw [if_neg hi] at h ⊢
    exact ⟨x, rfl, (Except.ok.inj h).symm⟩

/-- The loop of `BigInt_add_digits` run on the first `n` cells of the
buffer alone: when that run returns, the run on the whole buffer returns
the same receiver, so no cell from `n` on is read or written. -/
theorem add_digits_loop_take (b : BigInt) (n : Nat) :
    ∀ (fuel i c : Nat) (x r2 : BigInt),
      add_digits_loop b fuel i c { x with digits := x.digits.take n } = .ok r2 →
      ∃ r, add_digits_loop b fuel i c x = .ok r ∧ r2 = { r with digits := r.digits.take n }
  | 0, i, c, x, r2, h => by
    rw [add_digits_loop] at h ⊢
    by_cases hcond : i < b.num_digits ∨ c > 0
    · rw [if_pos hcond] at h
      exact absurd h (by simp)
    · rw [if_neg hcond] at h ⊢
      exact ⟨x, rfl, (Except.ok.inj h).symm⟩
  | fuel + 1, i, c, x, r2, h => by
    rw [add_digits_loop] at h ⊢
    by_cases hcond : i < b.num_digits ∨ c > 0
    · rw [if_pos hcond] at h ⊢
      cases hg2 : append_digit i { x with digits := x.digits.take n } with
      | error e =>
        rw [hg2] at h
        exact absurd h (by simp)
      | ok g2 =>
        rw [hg2] at h
        obtain ⟨g, hg, hg2eq⟩ := append_digit_take hg2
        subst hg2eq
        rw [hg]
        simp only [] at h ⊢
        cases hbd : (if i < b.num_digits then readDigit b.digits i else .ok 0) with
        | error e =>
          rw [hbd] at h
          exact absurd h (by simp)
        | ok bd =>
          rw [hbd] at h
          cases hown2 : readDigit (g.digits.take n) i with
          | error e =>
            rw [hown2] at h
            exact absurd h (by simp)
          | ok own =>
            rw [hown2] at h
            rw [readDigit_take hown2]
            simp only [] at h ⊢
            cases hw2 : writeDigit (g.digits.take n) i ((own + bd + c) % 10) with
            | error e =>
              rw [hw2] at h
              exact absurd h (by simp)
            | ok buf2 =>
              rw [hw2] at h
              obtain ⟨hwf, hbuf⟩ := writeDigit_take hw2
              rw [hwf]
              simp only [] at h ⊢
              rw [hbuf] at h
              exact add_digits_loop_take b n fuel (i + 1) _
                { g with digits := g.digits.set i ((own + bd + c) % 10) } r2 h
    · rw [if_neg hcond] at h ⊢
      exact ⟨x, rfl, (Except.ok.inj h).symm⟩

/-! ## The contract -/

/-- C1: `BigInt_add` on well-formed operands of any length returns, and the
receiver then denotes the integer it denoted before plus the integer the
addend denotes; in particular, for native integers `x` and `y` above the
minimum whose sum is in range, `BigInt_to_int` of the receiver after adding
`BigInt_construct y` to `BigInt_construct x` is `x + y`. -/
theorem add_correct :
    (∀ (junk : Nat → Nat) (a b : BigInt), WellFormed a → WellFormed b →
      ∃ r, BigInt_add junk a b = .ok r ∧ r.value = a.value + b.value) ∧
    (∀ (junk : Nat → Nat) (x y : Int), ValidInt x → ValidInt y → InIntRange (x + y) →
      ∃ r, BigInt_add junk (BigInt_construct x) (BigInt_construct y) = .ok r ∧
        BigInt_to_int r = .ok (x + y)) := by
  refine ⟨fun junk a b ha hb => ?_, fun junk x y hx hy hxy => ?_⟩
  · obtain ⟨r, hr, hv, _⟩ := add_spec junk ha hb
    exact ⟨r, hr, hv⟩
  · obtain ⟨r, hr, hv, hw, _⟩ :=
      add_spec junk (construct_wellFormed x hx) (construct_wellFormed y hy)
    rw [construct_value x hx, construct_value y hy] at hv
    refine ⟨r, hr, ?_⟩
    rw [← hv]
    apply to_int_eq_value r (by have := hw.1; unfold StorageOk at this; omega)
    rw [hv]
    exact hxy

/-- Witness of C1 at concrete operands. -/
theorem add_correct_witness :
    (∃ r, BigInt_add (fun _ => 7) ⟨true, [9, 9, 1], 3, 3⟩ ⟨false, [1, 2, 0], 2, 3⟩ = .ok r ∧
      r.value = (⟨true, [9, 9, 1], 3, 3⟩ : BigInt).value
        + (⟨false, [1, 2, 0], 2, 3⟩ : BigInt).value) ∧
    (∃ r, BigInt_add (fun _ => 7) (BigInt_construct 999999999) (BigInt_construct 1) = .ok r ∧
      BigInt_to_int r = .ok (999999999 + 1)) :=
  ⟨add_correct.1 _ _ _ (by decide) (by decide),
    add_correct.2 _ _ _ (by decide) (by decide) (by decide)⟩

/-- C2: `BigInt_subtract` on well-formed operands of any length returns,
and the receiver then denotes the integer it denoted before minus the
integer the other operand denotes; in particular, for native integers `x`
and `y` above the minimum whose difference is in range, `BigInt_to_int` of
the receiver after subtracting `BigInt_construct y` from
`BigInt_construct x` is `x - y`. -/
theorem subtract_correct :
    (∀ (junk : Nat → Nat) (a b : BigInt), WellFormed a → WellFormed b →
      ∃ r, BigInt_subtract junk a b = .ok r ∧ r.value = a.value - b.value) ∧
    (∀ (junk : Nat → Nat) (x y : Int), ValidInt x → ValidInt y → InIntRange (x - y) →
      ∃ r, BigInt_subtract junk (BigInt_construct x) (BigInt_construct y) = .ok r ∧
        BigInt_to_int r = .ok (x - y)) := by
  refine ⟨fun junk a b ha hb => ?_, fun junk x y hx hy hxy => ?_⟩
  · obtain ⟨r, hr, hv, _⟩ := subtract_spec junk ha hb
    exact ⟨r, hr, hv⟩
  · obtain ⟨r, hr, hv, hw⟩ :=
      subtract_spec junk (construct_wellFormed x hx) (construct_wellFormed y hy)
    rw [construct_value x hx, construct_value y hy] at hv
    refine ⟨r, hr, ?_⟩
    rw [← hv]
    apply to_int_eq_value r (by have := hw.1; unfold StorageOk at this; omega)
    rw [hv]
    exact hxy

/-- Witness of C2 at concrete operands. -/
theorem subtract_correct_witness :
    (∃ r, BigInt_subtract (fun _ => 7) ⟨true, [9, 9, 1], 3, 3⟩ ⟨true, [0], 1, 1⟩ = .ok r ∧
      r.value = (⟨true, [9, 9, 1], 3, 3⟩ : BigInt).value
        - (⟨true, [0], 1, 1⟩ : BigInt).value) ∧
    (∃ r, BigInt_subtract (fun _ => 7) (BigInt_construct 5) (BigInt_construct 6) = .ok r ∧
      BigInt_to_int r = .ok (5 - 6)) :=
  ⟨subtract_correct.1 _ _ _ (by decide) (by decide),
    subtract_correct.2 _ _ _ (by decide) (by decide) (by decide)⟩

/-- C3: for every native integer `v` above the minimum, `BigInt_to_int` of
`BigInt_construct v` returns `v`. -/
theorem construct_to_int (v : Int) (hv : ValidInt v) :
    BigInt_to_int (BigInt_construct v) = .ok v := by
  have hw := construct_wellFormed v hv
  have h := to_int_eq_value (BigInt_construct v)
    (by have := hw.1; unfold StorageOk at this; omega)
    (by rw [construct_value v hv]; unfold ValidInt at hv; unfold InIntRange; omega)
  rw [h, construct_value v hv]

/-- Witness of C3 at concrete operands. -/
theorem construct_to_int_witness :
    ValidInt (-2147483647) ∧
      BigInt_to_int (BigInt_construct (-2147483647)) = .ok (-2147483647) :=
  ⟨by decide, construct_to_int (-2147483647) (by decide)⟩

/-- A constructed zero has its sign flag clear. -/
theorem construct_zero_flag (v : Int) (hv : ValidInt v) :
    (BigInt_construct v).magnitude = 0 → (BigInt_construct v).is_negative = false := by
  intro h0
  rw [construct_magnitude v hv] at h0
  rw [(construct_fields v hv).1]
  simp only [decide_eq_false_iff_not]
  omega

/-- C4: for native integers `a` and `b` above the minimum, `BigInt_compare`
of the constructed values returns the sign of `a - b`: 1 when `a > b`, -1
when `a < b`, 0 when `a = b`. -/
theorem compare_construct (a b : Int) (ha : ValidInt a) (hb : ValidInt b) :
    BigInt_compare (BigInt_construct a) (BigInt_construct b)
      = .ok (if a > b then 1 else if a < b then -1 else 0) := by
  rw [compare_eq_signOf (construct_wellFormed a ha) (construct_wellFormed b hb)
    (construct_zero_flag a ha) (construct_zero_flag b hb),
    construct_value a ha, construct_value b hb]
  congr 1
  unfold signOf
  by_cases h1 : a > b
  · have : a - b > 0 := by omega
    simp only [h1, this, if_true]
  · by_cases h2 : a < b
    · have h3 : ¬ (a - b > 0) := by omega
      have h4 : a - b < 0 := by omega
      simp only [h1, h2, h3, h4, if_true, if_false]
    · have h3 : ¬ (a - b > 0) := by omega
      have h4 : ¬ (a - b < 0) := by omega
      simp only [h1, h2, h3, h4, if_false]

/-- Witness of C4 at concrete operands. -/
theorem compare_construct_witness :
    ValidInt (-1000) ∧ ValidInt 999 ∧
      BigInt_compare (BigInt_construct (-1000)) (BigInt_construct 999)
        = .ok (if (-1000 : Int) > 999 then 1 else if (-1000 : Int) < 999 then -1 else 0) :=
  ⟨by decide, by decide, compare_construct (-1000) 999 (by decide) (by decide)⟩

/-- C5 (the code at the failing input): a zero with the sign flag set does
not compare equal to a zero with the flag clear.  `BigInt_compare` returns
-1 on `(-0, +0)` and 1 on `(+0, -0)`, because the guard
`a->num_digits > 0 || ...` is true for every BigInt; and such a `-0` is
what `BigInt_subtract` leaves in the receiver for `0 - 0`. -/
theorem compare_signed_zero :
    BigInt_compare ⟨true, [0], 1, 1⟩ ⟨false, [0], 1, 1⟩ = .ok (-1) ∧
    BigInt_compare ⟨false, [0], 1, 1⟩ ⟨true, [0], 1, 1⟩ = .ok 1 ∧
    compare_guard ⟨true, [0], 1, 1⟩ ⟨false, [0], 1, 1⟩ = .ok true ∧
    ∃ r, BigInt_subtract (fun _ => 0) (BigInt_construct 0) (BigInt_construct 0) = .ok r ∧
      r.num_digits = 1 ∧ r.digits.getD 0 0 = 0 ∧ r.is_negative = true ∧
      BigInt_compare r (BigInt_construct 0) = .ok (-1) :=
  ⟨rfl, rfl, rfl, _, rfl, rfl, rfl, rfl, rfl⟩

/-- C6 (counterexample): a zero result can carry the sign flag.
`BigInt_subtract` of 5 from 5 and `BigInt_add` of -5 to 5 both leave a
receiver that denotes 0, has one digit 0, and has `is_negative` set. -/
theorem zero_result_flag_counterexample :
    (∃ r, BigInt_subtract (fun _ => 0) (BigInt_construct 5) (BigInt_construct 5) = .ok r ∧
      r.value = 0 ∧ r.num_digits = 1 ∧ r.digits.getD 0 0 = 0 ∧ r.is_negative = true) ∧
    (∃ r, BigInt_add (fun _ => 0) (BigInt_construct 5) (BigInt_construct (-5)) = .ok r ∧
      r.value = 0 ∧ r.num_digits = 1 ∧ r.digits.getD 0 0 = 0 ∧ r.is_negative = true) :=
  ⟨⟨_, rfl, rfl, rfl, rfl, rfl⟩, ⟨_, rfl, rfl, rfl, rfl, rfl⟩⟩

/-- C6 (amended): for native integers `a` and `b` above the minimum,
`BigInt_add` and `BigInt_subtract` of the constructed values return, and a
receiver that denotes zero has `num_digits = 1` and `digits[0] = 0`; after
`BigInt_add` with `b ≥ 0` its sign flag is clear as well. -/
theorem zero_result_single_digit (junk : Nat → Nat) (a b : Int) (ha : ValidInt a)
    (hb : ValidInt b) :
    (∃ r, BigInt_add junk (BigInt_construct a) (BigInt_construct b) = .ok r ∧
      (r.value = 0 → r.num_digits = 1 ∧ r.digits.getD 0 0 = 0 ∧
        (0 ≤ b → r.is_negative = false))) ∧
    (∃ r, BigInt_subtract junk (BigInt_construct a) (BigInt_construct b) = .ok r ∧
      (r.value = 0 → r.num_digits = 1 ∧ r.digits.getD 0 0 = 0)) := by
  have hwa := construct_wellFormed a ha
  have hwb := construct_wellFormed b hb
  constructor
  · obtain ⟨r, hr, hv, hw, hflag⟩ := add_spec junk hwa hwb
    refine ⟨r, hr, fun h0 => ?_⟩
    obtain ⟨hn, hd⟩ := single_zero_of_value_zero hw h0
    refine ⟨hn, hd, fun hb0 => ?_⟩
    rw [construct_value a ha, construct_value b hb, h0] at hv
    have hbn : (BigInt_construct b).is_negative = false := by
      rw [(construct_fields b hb).1]
      simp only [decide_eq_false_iff_not]
      omega
    have hmag : ¬ ((BigInt_construct b).magnitude < (BigInt_construct a).magnitude) := by
      rw [construct_magnitude a ha, construct_magnitude b hb]
      omega
    rw [hflag, if_neg hmag]
    split
    · rename_i hsame
      rw [hsame, hbn]
    · exact hbn
  · obtain ⟨r, hr, _, hw⟩ := subtract_spec junk hwa hwb
    exact ⟨r, hr, fun h0 => single_zero_of_value_zero hw h0⟩

/-- Witness of C6 (amended) at concrete operands. -/
theorem zero_result_single_digit_witness :
    (∃ r, BigInt_add (fun _ => 3) (BigInt_construct (-5)) (BigInt_construct 5) = .ok r ∧
      (r.value = 0 → r.num_digits = 1 ∧ r.digits.getD 0 0 = 0 ∧
        ((0 : Int) ≤ 5 → r.is_negative = false))) ∧
    (∃ r, BigInt_subtract (fun _ => 3) (BigInt_construct (-5)) (BigInt_construct 5) = .ok r ∧
      (r.value = 0 → r.num_digits = 1 ∧ r.digits.getD 0 0 = 0)) :=
  zero_result_single_digit (fun _ => 3) (-5) 5 (by decide) (by decide)

/-- C7: `BigInt_ensure_digits` on a BigInt with `capacity ≥ digit_count ≥ 1`
returns for every requested capacity `n`, and leaves the sign flag,
`num_digits` and the first `num_digits` digits as they were, so the integer
denoted and the result of `BigInt_to_int` are the same as before. -/
theorem ensure_digits_keeps_value (junk : Nat → Nat) (x : BigInt) (n : Nat)
    (hx : StorageOk x) :
    ∃ r, BigInt_ensure_digits junk x n = .ok r ∧
      r.is_negative = x.is_negative ∧ r.num_digits = x.num_digits ∧
      (∀ i, i < x.num_digits → r.digits.getD i 0 = x.digits.getD i 0) ∧
      r.value = x.value ∧
      ∃ v, BigInt_to_int x = .ok v ∧ BigInt_to_int r = .ok v := by
  obtain ⟨r, hr, hrn, hrnd, hrdig, hra, hrl⟩ := ensure_digits_spec junk hx n
  obtain ⟨h1, h2, h3⟩ := hx
  have hm := magnitude_ensure_digits hrnd hrdig
  have hv : r.value = x.value := by
    unfold BigInt.value
    rw [hrn, hm]
  have hcap : r.num_digits ≤ r.digits.length := by
    rw [hrl, hra, hrnd]
    split <;> omega
  refine ⟨r, hr, hrn, hrnd, hrdig, hv, wrap32 x.value, ?_, ?_⟩
  · exact to_int_eq_wrap32 x (by omega)
  · rw [to_int_eq_wrap32 r hcap, hv]

/-- Witness of C7 at concrete operands. -/
theorem ensure_digits_keeps_value_witness :
    StorageOk (BigInt_construct 42) ∧
    ∃ r, BigInt_ensure_digits (fun i => i) (BigInt_construct 42) 1000 = .ok r ∧
      r.is_negative = (BigInt_construct 42).is_negative ∧
      r.num_digits = (BigInt_construct 42).num_digits ∧
      (∀ i, i < (BigInt_construct 42).num_digits →
        r.digits.getD i 0 = (BigInt_construct 42).digits.getD i 0) ∧
      r.value = (BigInt_construct 42).value ∧
      ∃ v, BigInt_to_int (BigInt_construct 42) = .ok v ∧ BigInt_to_int r = .ok v :=
  ⟨by decide, ensure_digits_keeps_value (fun i => i) (BigInt_construct 42) 1000 (by decide)⟩

/-- C8: for native integers `a` and `b` above the minimum, `BigInt_add` of
the constructed values returns in both orders, and the two receivers denote
the same integer and convert to the same `int`. -/
theorem add_commutative (junk1 junk2 : Nat → Nat) (a b : Int) (ha : ValidInt a)
    (hb : ValidInt b) :
    ∃ r1 r2, BigInt_add junk1 (BigInt_construct a) (BigInt_construct b) = .ok r1 ∧
      BigInt_add junk2 (BigInt_construct b) (BigInt_construct a) = .ok r2 ∧
      r1.value = r2.value ∧
      ∃ v, BigInt_to_int r1 = .ok v ∧ BigInt_to_int r2 = .ok v := by
  have hwa := construct_wellFormed a ha
  have hwb := construct_wellFormed b hb
  obtain ⟨r1, hr1, hv1, hw1, _⟩ := add_spec junk1 hwa hwb
  obtain ⟨r2, hr2, hv2, hw2, _⟩ := add_spec junk2 hwb hwa
  have hv : r1.value = r2.value := by rw [hv1, hv2, Int.add_comm]
  have hc1 : r1.num_digits ≤ r1.digits.length := by
    have := hw1.1; unfold StorageOk at this; omega
  have hc2 : r2.num_digits ≤ r2.digits.length := by
    have := hw2.1; unfold StorageOk at this; omega
  refine ⟨r1, r2, hr1, hr2, hv, wrap32 r1.value, to_int_eq_wrap32 r1 hc1, ?_⟩
  rw [to_int_eq_wrap32 r2 hc2, hv]

/-- Witness of C8 at concrete operands. -/
theorem add_commutative_witness :
    ValidInt 123456 ∧ ValidInt (-1234) ∧
    ∃ r1 r2, BigInt_add (fun _ => 1) (BigInt_construct 123456) (BigInt_construct (-1234))
        = .ok r1 ∧
      BigInt_add (fun _ => 2) (BigInt_construct (-1234)) (BigInt_construct 123456) = .ok r2 ∧
      r1.value = r2.value ∧
      ∃ v, BigInt_to_int r1 = .ok v ∧ BigInt_to_int r2 = .ok v :=
  ⟨by decide, by decide,
    add_commutative (fun _ => 1) (fun _ => 2) 123456 (-1234) (by decide) (by decide)⟩

/-- C9: `BigInt_subtract` on well-formed operands returns a receiver in
canonical form: `num_digits = 1` or a non-zero most-significant digit
`digits[num_digits - 1]`; and `BigInt_construct 100` minus
`BigInt_construct 99` has `num_digits = 1` and the digit 1. -/
theorem subtract_canonical :
    (∀ (junk : Nat → Nat) (a b : BigInt), WellFormed a → WellFormed b →
      ∃ r, BigInt_subtract junk a b = .ok r ∧
        (r.num_digits = 1 ∨ r.digits.getD (r.num_digits - 1) 0 ≠ 0)) ∧
    (∀ junk : Nat → Nat,
      ∃ r, BigInt_subtract junk (BigInt_construct 100) (BigInt_construct 99) = .ok r ∧
        r.num_digits = 1 ∧ r.digits.getD 0 0 = 1) := by
  refine ⟨fun junk a b ha hb => ?_, fun junk => ⟨_, rfl, rfl, rfl⟩⟩
  obtain ⟨r, hr, _, hw⟩ := subtract_spec junk ha hb
  exact ⟨r, hr, hw.2.2⟩

/-- Witness of C9 at concrete operands. -/
theorem subtract_canonical_witness :
    ∃ r, BigInt_subtract (fun _ => 5) ⟨false, [0, 0, 0, 1], 4, 4⟩ ⟨false, [9, 9, 9], 3, 3⟩
        = .ok r ∧
      (r.num_digits = 1 ∨ r.digits.getD (r.num_digits - 1) 0 ≠ 0) :=
  subtract_canonical.1 (fun _ => 5) _ _ (by decide) (by decide)

/-- C10: on well-formed operands in canonical form `BigInt_compare_digits`
returns the sign of the difference of the magnitudes, 1 if the magnitude of
`a` is larger, -1 if it is smaller, 0 if they are equal; and the sign flags
play no part in the result. -/
theorem compare_digits_magnitude (a b : BigInt) (ha : WellFormed a) (hb : WellFormed b) :
    BigInt_compare_digits a b
      = .ok (if a.magnitude > b.magnitude then 1
             else if a.magnitude < b.magnitude then -1 else 0) ∧
    ∀ sa sb : Bool,
      BigInt_compare_digits { a with is_negative := sa } { b with is_negative := sb }
        = BigInt_compare_digits a b := by
  refine ⟨?_, fun _ _ => rfl⟩
  rw [compare_digits_eq ha hb]
  congr 1
  unfold signOf
  by_cases h1 : a.magnitude > b.magnitude
  · have : (a.magnitude : Int) - (b.magnitude : Int) > 0 := by omega
    simp only [h1, this, if_true]
  · by_cases h2 : a.magnitude < b.magnitude
    · have h3 : ¬ ((a.magnitude : Int) - (b.magnitude : Int) > 0) := by omega
      have h4 : (a.magnitude : Int) - (b.magnitude : Int) < 0 := by omega
      simp only [h1, h2, h3, h4, if_true, if_false]
    · have h3 : ¬ ((a.magnitude : Int) - (b.magnitude : Int) > 0) := by omega
      have h4 : ¬ ((a.magnitude : Int) - (b.magnitude : Int) < 0) := by omega
      simp only [h1, h2, h3, h4, if_false]

/-- Witness of C10 at concrete operands. -/
theorem compare_digits_magnitude_witness :
    BigInt_compare_digits ⟨true, [9, 9, 9], 3, 3⟩ ⟨false, [0, 0, 0, 1, 6], 4, 5⟩
      = .ok (if (⟨true, [9, 9, 9], 3, 3⟩ : BigInt).magnitude
                > (⟨false, [0, 0, 0, 1, 6], 4, 5⟩ : BigInt).magnitude then 1
             else if (⟨true, [9, 9, 9], 3, 3⟩ : BigInt).magnitude
                < (⟨false, [0, 0, 0, 1, 6], 4, 5⟩ : BigInt).magnitude then -1 else 0) :=
  (compare_digits_magnitude ⟨true, [9, 9, 9], 3, 3⟩ ⟨false, [0, 0, 0, 1, 6], 4, 5⟩
    (by decide) (by decide)).1

/-- C11 (counterexample): when `a = b` the receiver of `BigInt_subtract`
carries the negative flag although `a ≥ b`: after `0 - 0` and after
`123 - 123` the flag `is_negative` is set. -/
theorem subtract_flag_counterexample :
    (∃ r, BigInt_subtract (fun _ => 0) (BigInt_construct 0) (BigInt_construct 0) = .ok r ∧
      r.is_negative = true) ∧
    (∃ r, BigInt_subtract (fun _ => 0) (BigInt_construct 123) (BigInt_construct 123) = .ok r ∧
      r.is_negative = true) :=
  ⟨⟨_, rfl, rfl⟩, ⟨_, rfl, rfl⟩⟩

/-- C11 (amended): for native integers `a` and `b` above the minimum,
`BigInt_subtract` of the constructed values returns a receiver whose sign
flag is clear if `a > b` and set otherwise, so also when `a = b`. -/
theorem subtract_flag_rule (junk : Nat → Nat) (a b : Int) (ha : ValidInt a)
    (hb : ValidInt b) :
    ∃ r, BigInt_subtract junk (BigInt_construct a) (BigInt_construct b) = .ok r ∧
      (a > b → r.is_negative = false) ∧ (a ≤ b → r.is_negative = true) := by
  have hwa := construct_wellFormed a ha
  have hwb := construct_wellFormed b hb
  obtain ⟨c, r, hc, hr, hflag⟩ := subtract_flag junk hwa hwb
  rw [compare_eq_signOf hwa hwb (construct_zero_flag a ha) (construct_zero_flag b hb),
    construct_value a ha, construct_value b hb] at hc
  have hc1 := Except.ok.inj hc
  have hpos : c > 0 ↔ a > b := by
    rw [← hc1, signOf_pos_iff]
    omega
  refine ⟨r, hr, fun h => ?_, fun h => ?_⟩
  · rw [hflag, if_pos (hpos.mpr h)]
  · rw [hflag, if_neg (fun hc0 => by have := hpos.mp hc0; omega)]

/-- Witness of C11 (amended) at `5 - 6`. -/
theorem subtract_flag_rule_witness :
    ValidInt 5 ∧ ValidInt 6 ∧
    ∃ r, BigInt_subtract (fun _ => 1) (BigInt_construct 5) (BigInt_construct 6) = .ok r ∧
      ((5 : Int) > 6 → r.is_negative = false) ∧ ((5 : Int) ≤ 6 → r.is_negative = true) :=
  ⟨by decide, by decide, subtract_flag_rule (fun _ => 1) 5 6 (by decide) (by decide)⟩

/-- C12: on well-formed (canonical) operands `BigInt_subtract_digits` runs
as follows.  The receiver is grown, `BigInt_compare_digits` returns `c`, and
the operand taken as minuend (the receiver if `c > 0`, the other operand if
not) has a magnitude at least that of the other.  The loop then returns
without a failing `assert(new_digit >= 0)`, the carry it leaves is 0, so
`assert(carry == 0)` holds, every digit it stored is in 0..9, and the
function returns the receiver with these digits. -/
theorem subtract_digits_checks (junk : Nat → Nat) (a b : BigInt) (ha : WellFormed a)
    (hb : WellFormed b) :
    ∃ (e : BigInt) (c : Int) (buf : List Nat) (nd : Nat),
      BigInt_ensure_digits junk a (MAX a.num_digits b.num_digits + 1) = .ok e ∧
      BigInt_compare_digits e b = .ok c ∧
      (c > 0 → b.magnitude ≤ a.magnitude) ∧ (¬ c > 0 → a.magnitude ≤ b.magnitude) ∧
      subtract_digits_loop (decide (c > 0)) b.digits
        (if c > 0 then b.num_digits else e.num_digits)
        (if c > 0 then e.num_digits else b.num_digits) 0 0 e.digits 1 = .ok (buf, nd, 0) ∧
      (∀ j, j < (if c > 0 then e.num_digits else b.num_digits) → buf.getD j 0 ≤ 9) ∧
      BigInt_subtract_digits junk a b = .ok { e with digits := buf, num_digits := nd } := by
  obtain ⟨e, he, hew, hen, hend, hem, hecap, hea⟩ :=
    ensure_digits_wellFormed junk ha (MAX a.num_digits b.num_digits + 1)
  rw [MAX_eq_max] at hecap
  have hcmp := compare_digits_eq hew hb
  obtain ⟨⟨he1, he2, he3⟩, hed, hec⟩ := hew
  obtain ⟨⟨hb1, hb2, hb3⟩, hbd, hbc⟩ := hb
  by_cases hgt : b.magnitude < e.magnitude
  · have hpos : signOf ((e.magnitude : Int) - (b.magnitude : Int)) > 0 := by
      rw [signOf_pos_iff]; omega
    have hsg : b.num_digits ≤ e.num_digits := by
      by_contra hcon
      have := magnitude_lt_of_num_digits_lt hed hbc (by omega) he1
      omega
    obtain ⟨buf1, nd1, carry1, hloop, hlen, hinv⟩ :=
      subtract_digits_loop_spec true b.digits e.digits b.digits e.digits.length hsg
        (by omega) (by simp) (fun _ => by omega)
        hed hbd e.num_digits 0 0 e.digits 1 (by omega) rfl
        (subtractInv_init true b.digits e.digits b.digits e.digits _ _ rfl rfl)
    obtain ⟨hc0, _⟩ := subtractInv_final hinv hsg he1 (Nat.le_of_lt hgt)
    have h9 := hinv.2.2.2.2.1
    rw [hc0] at hloop
    refine ⟨e, _, buf1, nd1, he, hcmp, fun _ => by omega, fun h => absurd hpos h, ?_, ?_, ?_⟩
    · rw [if_pos hpos, if_pos hpos, decide_eq_true hpos]
      exact hloop
    · rw [if_pos hpos]
      exact h9
    · rw [BigInt_subtract_digits, he]
      simp only []
      rw [hcmp]
      simp only [decide_eq_true hpos, if_true, hloop]
  · have hnpos : ¬ (signOf ((e.magnitude : Int) - (b.magnitude : Int)) > 0) := by
      rw [signOf_pos_iff]; omega
    have hsg : e.num_digits ≤ b.num_digits := by
      by_contra hcon
      have := magnitude_lt_of_num_digits_lt hbd hec (by omega) hb1
      omega
    obtain ⟨buf1, nd1, carry1, hloop, hlen, hinv⟩ :=
      subtract_digits_loop_spec false b.digits b.digits e.digits e.digits.length hsg
        (by omega) (fun _ => by omega) (by simp)
        hbd hed b.num_digits 0 0 e.digits 1 (by omega) rfl
        (subtractInv_init false b.digits b.digits e.digits e.digits _ _ rfl rfl)
    obtain ⟨hc0, _⟩ := subtractInv_final hinv hsg hb1 (Nat.le_of_not_lt hgt)
    have h9 := hinv.2.2.2.2.1
    rw [hc0] at hloop
    refine ⟨e, _, buf1, nd1, he, hcmp, fun h => absurd h hnpos, fun _ => by omega, ?_, ?_, ?_⟩
    · rw [if_neg hnpos, if_neg hnpos, decide_eq_false hnpos]
      exact hloop
    · rw [if_neg hnpos]
      exact h9
    · rw [BigInt_subtract_digits, he]
      simp only []
      rw [hcmp]
      simp only [decide_eq_false hnpos, Bool.false_eq_true, if_false, hloop, if_true]

/-- Witness of C12 at `999 - 1000`, where the other operand is the minuend. -/
theorem subtract_digits_checks_witness :
    ∃ (e : BigInt) (c : Int) (buf : List Nat) (nd : Nat),
      BigInt_ensure_digits (fun _ => 8) ⟨false, [9, 9, 9], 3, 3⟩
        (MAX (⟨false, [9, 9, 9], 3, 3⟩ : BigInt).num_digits
          (⟨false, [0, 0, 0, 1], 4, 4⟩ : BigInt).num_digits + 1) = .ok e ∧
      BigInt_compare_digits e ⟨false, [0, 0, 0, 1], 4, 4⟩ = .ok c ∧
      (c > 0 → (⟨false, [0, 0, 0, 1], 4, 4⟩ : BigInt).magnitude
        ≤ (⟨false, [9, 9, 9], 3, 3⟩ : BigInt).magnitude) ∧
      (¬ c > 0 → (⟨false, [9, 9, 9], 3, 3⟩ : BigInt).magnitude
        ≤ (⟨false, [0, 0, 0, 1], 4, 4⟩ : BigInt).magnitude) ∧
      subtract_digits_loop (decide (c > 0)) (⟨false, [0, 0, 0, 1], 4, 4⟩ : BigInt).digits
        (if c > 0 then (⟨false, [0, 0, 0, 1], 4, 4⟩ : BigInt).num_digits else e.num_digits)
        (if c > 0 then e.num_digits else (⟨false, [0, 0, 0, 1], 4, 4⟩ : BigInt).num_digits)
        0 0 e.digits 1 = .ok (buf, nd, 0) ∧
      (∀ j, j < (if c > 0 then e.num_digits
          else (⟨false, [0, 0, 0, 1], 4, 4⟩ : BigInt).num_digits) → buf.getD j 0 ≤ 9) ∧
      BigInt_subtract_digits (fun _ => 8) ⟨false, [9, 9, 9], 3, 3⟩ ⟨false, [0, 0, 0, 1], 4, 4⟩
        = .ok { e with digits := buf, num_digits := nd } :=
  subtract_digits_checks (fun _ => 8) ⟨false, [9, 9, 9], 3, 3⟩ ⟨false, [0, 0, 0, 1], 4, 4⟩
    (by decide) (by decide)

/-- C13: for operands with `capacity ≥ digit_count ≥ 1`, whatever their
digits, `BigInt_add_digits` first ensures a capacity of at least
`MAX(num_digits, addend->num_digits) + 1`; its loop then returns on a fuel
of that many iterations, so it performs at most that many; the same run on
the first `MAX + 1` cells of the buffer alone returns the same receiver, so
every index read or written in the buffer is below `MAX + 1`; and the
resulting `num_digits` is at most `MAX + 1`. -/
theorem add_digits_bounds (junk : Nat → Nat) (a b : BigInt) (ha : StorageOk a)
    (hb : StorageOk b) :
    ∃ e r,
      BigInt_ensure_digits junk a (MAX a.num_digits b.num_digits + 1) = .ok e ∧
      MAX a.num_digits b.num_digits + 1 ≤ e.num_allocated_digits ∧
      e.digits.length = e.num_allocated_digits ∧
      add_digits_loop b (MAX a.num_digits b.num_digits + 1) 0 0 e = .ok r ∧
      add_digits_loop b (MAX a.num_digits b.num_digits + 1) 0 0
          { e with digits := e.digits.take (MAX a.num_digits b.num_digits + 1) }
        = .ok { r with digits := r.digits.take (MAX a.num_digits b.num_digits + 1) } ∧
      BigInt_add_digits junk a b = .ok r ∧
      r.num_digits ≤ MAX a.num_digits b.num_digits + 1 := by
  obtain ⟨e, he, _, hend, _, hcap, hlen⟩ :=
    ensure_digits_spec junk ha (MAX a.num_digits b.num_digits + 1)
  obtain ⟨ha1, ha2, ha3⟩ := ha
  obtain ⟨hb1, hb2, hb3⟩ := hb
  have hcap1 : MAX a.num_digits b.num_digits + 1 ≤ e.num_allocated_digits := by
    rw [hcap]; split <;> omega
  have hM := MAX_eq_max a.num_digits b.num_digits
  have htl : (e.digits.take (MAX a.num_digits b.num_digits + 1)).length
      = MAX a.num_digits b.num_digits + 1 := by
    rw [List.length_take]; omega
  obtain ⟨r2, hr2, hr2n, _, _⟩ :=
    add_digits_loop_bounds b (by omega) (MAX a.num_digits b.num_digits + 1) 0 0
      { e with digits := e.digits.take (MAX a.num_digits b.num_digits + 1) }
      (by omega) (Nat.zero_le _)
      (by simp only [htl]; omega)
      (Or.inl (by simp only [htl]; omega))
      (Or.inl (by simp only []; omega))
  obtain ⟨r, hr, hreq⟩ := add_digits_loop_take b _ _ 0 0 e r2 hr2
  have hfull := add_digits_loop_fuel_mono b _ 0 0 e r hr (e.digits.length + 1) (by omega)
  refine ⟨e, r, he, hcap1, hlen, hr, by rw [← hreq]; exact hr2, ?_, ?_⟩
  · rw [BigInt_add_digits, he]
    exact hfull
  · have : r2.num_digits = r.num_digits := by rw [hreq]
    simp only [] at hr2n
    omega

/-- Witness of C13: a carry through `999 + 1` in a buffer of six cells. -/
theorem add_digits_bounds_witness :
    ∃ e r,
      BigInt_ensure_digits (fun _ => 0) ⟨false, [9, 9, 9, 5, 5, 5], 3, 6⟩
        (MAX (⟨false, [9, 9, 9, 5, 5, 5], 3, 6⟩ : BigInt).num_digits
          (⟨false, [1], 1, 1⟩ : BigInt).num_digits + 1) = .ok e ∧
      MAX (⟨false, [9, 9, 9, 5, 5, 5], 3, 6⟩ : BigInt).num_digits
          (⟨false, [1], 1, 1⟩ : BigInt).num_digits + 1 ≤ e.num_allocated_digits ∧
      e.digits.length = e.num_allocated_digits ∧
      add_digits_loop ⟨false, [1], 1, 1⟩
        (MAX (⟨false, [9, 9, 9, 5, 5, 5], 3, 6⟩ : BigInt).num_digits
          (⟨false, [1], 1, 1⟩ : BigInt).num_digits + 1) 0 0 e = .ok r ∧
      add_digits_loop ⟨false, [1], 1, 1⟩
          (MAX (⟨false, [9, 9, 9, 5, 5, 5], 3, 6⟩ : BigInt).num_digits
            (⟨false, [1], 1, 1⟩ : BigInt).num_digits + 1) 0 0
          { e with
            digits := e.digits.take
              (MAX (⟨false, [9, 9, 9, 5, 5, 5], 3, 6⟩ : BigInt).num_digits
                (⟨false, [1], 1, 1⟩ : BigInt).num_digits + 1) }
        = .ok { r with
                digits := r.digits.take
                  (MAX (⟨false, [9, 9, 9, 5, 5, 5], 3, 6⟩ : BigInt).num_digits
                    (⟨false, [1], 1, 1⟩ : BigInt).num_digits + 1) } ∧
      BigInt_add_digits (fun _ => 0) ⟨false, [9, 9, 9, 5, 5, 5], 3, 6⟩ ⟨false, [1], 1, 1⟩
        = .ok r ∧
      r.num_digits ≤ MAX (⟨false, [9, 9, 9, 5, 5, 5], 3, 6⟩ : BigInt).num_digits
        (⟨false, [1], 1, 1⟩ : BigInt).num_digits + 1 :=
  add_digits_bounds (fun _ => 0) ⟨false, [9, 9, 9, 5, 5, 5], 3, 6⟩ ⟨false, [1], 1, 1⟩
    (by decide) (by decide)

/-- C14: for every native integer `v` above the minimum, `BigInt_construct v`
has the sign flag `v < 0`, as many digits as the decimal writing of `|v|`
(`floor(log10 |v|) + 1`, and 1 for `v = 0`), a capacity and a buffer of
exactly that size, and `digits[i] = (|v| / 10^i) mod 10` for each used `i`;
`BigInt_construct 0` is the single digit 0 and `BigInt_construct (-1)` is
negative with the single digit 1. -/
theorem construct_representation :
    (∀ v : Int, ValidInt v →
      (BigInt_construct v).is_negative = decide (v < 0) ∧
      (BigInt_construct v).num_digits = (if v = 0 then 1 else Nat.log 10 v.natAbs + 1) ∧
      (BigInt_construct v).num_allocated_digits = (BigInt_construct v).num_digits ∧
      (BigInt_construct v).digits.length = (BigInt_construct v).num_digits ∧
      ∀ i, i < (BigInt_construct v).num_digits →
        (BigInt_construct v).digits.getD i 0 = v.natAbs / 10 ^ i % 10) ∧
    BigInt_construct 0 = ⟨false, [0], 1, 1⟩ ∧
    BigInt_construct (-1) = ⟨true, [1], 1, 1⟩ := by
  refine ⟨fun v hv => ?_, by decide, by decide⟩
  obtain ⟨hs, hn, ha, hl, hd⟩ := construct_fields v hv
  have hlen : decimalLength v.natAbs = (if v = 0 then 1 else Nat.log 10 v.natAbs + 1) := by
    unfold decimalLength
    by_cases h0 : v = 0
    · simp [h0]
    · have : v.natAbs ≠ 0 := by omega
      simp [h0, this]
  refine ⟨hs, by rw [hn, hlen], by rw [ha, hn], by rw [hl, hn], fun i hi => ?_⟩
  rw [hn] at hi
  exact hd i hi

/-- Witness of C14 at a ten-digit negative integer. -/
theorem construct_representation_witness :
    ValidInt (-2000000009) ∧
      (BigInt_construct (-2000000009)).is_negative = decide ((-2000000009 : Int) < 0) ∧
      (BigInt_construct (-2000000009)).num_digits
        = (if (-2000000009 : Int) = 0 then 1
           else Nat.log 10 (-2000000009 : Int).natAbs + 1) ∧
      (BigInt_construct (-2000000009)).num_allocated_digits
        = (BigInt_construct (-2000000009)).num_digits ∧
      (BigInt_construct (-2000000009)).digits.length
        = (BigInt_construct (-2000000009)).num_digits ∧
      ∀ i, i < (BigInt_construct (-2000000009)).num_digits →
        (BigInt_construct (-2000000009)).digits.getD i 0
          = (-2000000009 : Int).natAbs / 10 ^ i % 10 :=
  ⟨by decide, construct_representation.1 (-2000000009) (by decide)⟩

/-- C15: on a BigInt with `capacity ≥ digit_count ≥ 1` and capacity `c`,
`BigInt_ensure_digits` with a request `n` returns; it changes nothing when
`c ≥ n` and leaves the capacity exactly `n` when `c < n`; so the capacity
afterwards is `max c n`, is not smaller than before, is at least `n`, and
is the size of the buffer. -/
theorem ensure_digits_capacity (junk : Nat → Nat) (x : BigInt) (n : Nat) (hx : StorageOk x) :
    ∃ r, BigInt_ensure_digits junk x n = .ok r ∧
      (n ≤ x.num_allocated_digits → r = x) ∧
      (x.num_allocated_digits < n → r.num_allocated_digits = n) ∧
      r.num_allocated_digits = max x.num_allocated_digits n ∧
      x.num_allocated_digits ≤ r.num_allocated_digits ∧
      n ≤ r.num_allocated_digits ∧
      r.digits.length = r.num_allocated_digits := by
  obtain ⟨r, hr, _, _, _, hcap, hlen⟩ := ensure_digits_spec junk hx n
  refine ⟨r, hr, fun hle => ?_, fun hlt => by rw [hcap, if_pos hlt], ?_, ?_, ?_, hlen⟩
  · unfold BigInt_ensure_digits at hr
    rw [if_neg (by omega)] at hr
    exact (Except.ok.inj hr).symm
  · rw [hcap]; split <;> omega
  · rw [hcap]; split <;> omega
  · rw [hcap]; split <;> omega

/-- Witness of C15: growing `BigInt_construct 42` to 1000 cells. -/
theorem ensure_digits_capacity_witness :
    StorageOk (BigInt_construct 42) ∧
    ∃ r, BigInt_ensure_digits (fun _ => 9) (BigInt_construct 42) 1000 = .ok r ∧
      (1000 ≤ (BigInt_construct 42).num_allocated_digits → r = BigInt_construct 42) ∧
      ((BigInt_construct 42).num_allocated_digits < 1000 → r.num_allocated_digits = 1000) ∧
      r.num_allocated_digits = max (BigInt_construct 42).num_allocated_digits 1000 ∧
      (BigInt_construct 42).num_allocated_digits ≤ r.num_allocated_digits ∧
      1000 ≤ r.num_allocated_digits ∧
      r.digits.length = r.num_allocated_digits :=
  ⟨by decide, ensure_digits_capacity (fun _ => 9) (BigInt_construct 42) 1000 (by decide)⟩

/-- C16: the structural invariant (`capacity ≥ digit_count ≥ 1`, the buffer
having the recorded capacity, every used digit in 0..9) holds for
`BigInt_construct v` on every native integer above the minimum; it is kept
by `BigInt_ensure_digits`; and `BigInt_add` and `BigInt_subtract` on
well-formed (canonical) operands return a receiver that satisfies it. -/
theorem structural_invariant :
    (∀ v : Int, ValidInt v →
      StorageOk (BigInt_construct v) ∧ DigitsInRange (BigInt_construct v)) ∧
    (∀ (junk : Nat → Nat) (x : BigInt) (n : Nat), StorageOk x → DigitsInRange x →
      ∃ r, BigInt_ensure_digits junk x n = .ok r ∧ StorageOk r ∧ DigitsInRange r) ∧
    (∀ (junk : Nat → Nat) (a b : BigInt), WellFormed a → WellFormed b →
      ∃ r, BigInt_add junk a b = .ok r ∧ StorageOk r ∧ DigitsInRange r) ∧
    (∀ (junk : Nat → Nat) (a b : BigInt), WellFormed a → WellFormed b →
      ∃ r, BigInt_subtract junk a b = .ok r ∧ StorageOk r ∧ DigitsInRange r) := by
  refine ⟨fun v hv => ?_, fun junk x n hs hd => ensure_digits_invariant junk hs hd n,
    fun junk a b ha hb => ?_, fun junk a b ha hb => ?_⟩
  · have hw := construct_wellFormed v hv
    exact ⟨hw.1, hw.2.1⟩
  · obtain ⟨r, hr, _, hw, _⟩ := add_spec junk ha hb
    exact ⟨r, hr, hw.1, hw.2.1⟩
  · obtain ⟨r, hr, _, hw⟩ := subtract_spec junk ha hb
    exact ⟨r, hr, hw.1, hw.2.1⟩

/-- Witness of C16 at concrete operands, one for each operation. -/
theorem structural_invariant_witness :
    (StorageOk (BigInt_construct (-907)) ∧ DigitsInRange (BigInt_construct (-907))) ∧
    (∃ r, BigInt_ensure_digits (fun _ => 200) ⟨true, [7, 0, 9], 3, 3⟩ 8 = .ok r ∧
      StorageOk r ∧ DigitsInRange r) ∧
    (∃ r, BigInt_add (fun _ => 200) ⟨true, [9, 9, 9], 3, 3⟩ ⟨true, [1], 1, 1⟩ = .ok r ∧
      StorageOk r ∧ DigitsInRange r) ∧
    (∃ r, BigInt_subtract (fun _ => 200) ⟨true, [0, 0, 1], 3, 3⟩ ⟨true, [1], 1, 1⟩ = .ok r ∧
      StorageOk r ∧ DigitsInRange r) :=
  ⟨structural_invariant.1 (-907) (by decide),
    structural_invariant.2.1 _ _ _ (by decide) (by decide),
    structural_invariant.2.2.1 _ _ _ (by decide) (by decide),
    structural_invariant.2.2.2 _ _ _ (by decide) (by decide)⟩

/-- C17: for well-formed (canonical) operands of any length whose zero
carries no negative flag, `BigInt_compare` returns the sign of the
difference of the exact integers denoted: 1 if `a` denotes the larger one,
-1 if the smaller, 0 if they are equal. -/
theorem compare_integer_order (a b : BigInt) (ha : WellFormed a) (hb : WellFormed b)
    (hza : a.value = 0 → a.is_negative = false) (hzb : b.value = 0 → b.is_negative = false) :
    BigInt_compare a b = .ok (signOf (a.value - b.value)) ∧
    signOf (a.value - b.value)
      = (if a.value > b.value then 1 else if a.value < b.value then -1 else 0) :=
  ⟨compare_eq_signOf ha hb (fun h => hza ((value_zero_iff_magnitude_zero a).mpr h))
      (fun h => hzb ((value_zero_iff_magnitude_zero b).mpr h)),
    signOf_eq_ite a.value b.value⟩

/-- Witness of C17 at two negative twelve-digit operands. -/
theorem compare_integer_order_witness :
    BigInt_compare ⟨true, [1, 2, 3, 4, 5, 6, 7, 8, 9, 0, 1, 2], 12, 12⟩
        ⟨true, [2, 2, 3, 4, 5, 6, 7, 8, 9, 0, 1, 2, 0], 12, 13⟩
      = .ok (signOf ((⟨true, [1, 2, 3, 4, 5, 6, 7, 8, 9, 0, 1, 2], 12, 12⟩ : BigInt).value
          - (⟨true, [2, 2, 3, 4, 5, 6, 7, 8, 9, 0, 1, 2, 0], 12, 13⟩ : BigInt).value)) :=
  (compare_integer_order ⟨true, [1, 2, 3, 4, 5, 6, 7, 8, 9, 0, 1, 2], 12, 12⟩
    ⟨true, [2, 2, 3, 4, 5, 6, 7, 8, 9, 0, 1, 2, 0], 12, 13⟩ (by decide) (by decide)
    (by decide) (by decide)).1

/-- C18: `BigInt_add` on well-formed (canonical) operands returns a receiver
in canonical form, `num_digits = 1` or a non-zero most-significant digit;
when the flags match the receiver is the one `BigInt_add_digits` returns,
and when they differ its digits are those `BigInt_subtract_digits`
returns. -/
theorem add_canonical (junk : Nat → Nat) (a b : BigInt) (ha : WellFormed a)
    (hb : WellFormed b) :
    ∃ r, BigInt_add junk a b = .ok r ∧
      (r.num_digits = 1 ∨ r.digits.getD (r.num_digits - 1) 0 ≠ 0) ∧
      (a.is_negative = b.is_negative → BigInt_add_digits junk a b = .ok r) ∧
      (a.is_negative ≠ b.is_negative →
        ∃ r0, BigInt_subtract_digits junk a b = .ok r0 ∧
          r.digits = r0.digits ∧ r.num_digits = r0.num_digits) := by
  obtain ⟨r, hr, _, hw, _⟩ := add_spec junk ha hb
  refine ⟨r, hr, hw.2.2, fun hsame => ?_, fun hdiff => ?_⟩
  · unfold BigInt_add at hr
    rw [if_pos hsame] at hr
    exact hr
  · obtain ⟨r0, hr0, _⟩ := subtract_digits_spec junk ha hb
    unfold BigInt_add at hr
    rw [if_neg hdiff, compare_digits_eq ha hb] at hr
    simp only [hr0] at hr
    have hreq := Except.ok.inj hr
    exact ⟨r0, hr0, by rw [← hreq], by rw [← hreq]⟩

/-- Witness of C18: a carry that grows the receiver, and operands of
opposite signs. -/
theorem add_canonical_witness :
    (∃ r, BigInt_add (fun _ => 4) ⟨false, [9, 9, 9], 3, 3⟩ ⟨false, [1], 1, 1⟩ = .ok r ∧
      (r.num_digits = 1 ∨ r.digits.getD (r.num_digits - 1) 0 ≠ 0) ∧
      ((false : Bool) = false →
        BigInt_add_digits (fun _ => 4) ⟨false, [9, 9, 9], 3, 3⟩ ⟨false, [1], 1, 1⟩ = .ok r) ∧
      ((false : Bool) ≠ false →
        ∃ r0, BigInt_subtract_digits (fun _ => 4) ⟨false, [9, 9, 9], 3, 3⟩ ⟨false, [1], 1, 1⟩
            = .ok r0 ∧
          r.digits = r0.digits ∧ r.num_digits = r0.num_digits)) ∧
    (∃ r, BigInt_add (fun _ => 4) ⟨false, [0, 0, 1], 3, 3⟩ ⟨true, [9, 9], 2, 2⟩ = .ok r ∧
      (r.num_digits = 1 ∨ r.digits.getD (r.num_digits - 1) 0 ≠ 0) ∧
      ((false : Bool) = true →
        BigInt_add_digits (fun _ => 4) ⟨false, [0, 0, 1], 3, 3⟩ ⟨true, [9, 9], 2, 2⟩ = .ok r) ∧
      ((false : Bool) ≠ true →
        ∃ r0, BigInt_subtract_digits (fun _ => 4) ⟨false, [0, 0, 1], 3, 3⟩ ⟨true, [9, 9], 2, 2⟩
            = .ok r0 ∧
          r.digits = r0.digits ∧ r.num_digits = r0.num_digits)) :=
  ⟨add_canonical (fun _ => 4) ⟨false, [9, 9, 9], 3, 3⟩ ⟨false, [1], 1, 1⟩
      (by decide) (by decide),
    add_canonical (fun _ => 4) ⟨false, [0, 0, 1], 3, 3⟩ ⟨true, [9, 9], 2, 2⟩
      (by decide) (by decide)⟩

/-- C19: for any two BigInts with `capacity ≥ digit_count ≥ 1`, whatever
their digits, their form and the flag of a zero, `BigInt_compare` returns in
both orders, the two results are opposite, and each is -1, 0 or 1. -/
theorem compare_antisymmetric (a b : BigInt) (ha : StorageOk a) (hb : StorageOk b) :
    ∃ c : Int, BigInt_compare a b = .ok c ∧ BigInt_compare b a = .ok (-c) ∧
      (c = -1 ∨ c = 0 ∨ c = 1) := by
  obtain ⟨ha1, ha2, ha3⟩ := ha
  obtain ⟨hb1, hb2, hb3⟩ := hb
  obtain ⟨c, hc1, hc2, hc3⟩ := compare_digits_antisymm (a := a) (b := b) (by omega) (by omega)
  rw [BigInt_compare, BigInt_compare, compare_guard_of_pos b (by omega : 0 < a.num_digits),
    compare_guard_of_pos a (by omega : 0 < b.num_digits)]
  cases hna : a.is_negative <;> cases hnb : b.is_negative
  · exact ⟨c, by simpa using hc1, by simpa using hc2, hc3⟩
  · exact ⟨1, by simp, by simp, Or.inr (Or.inr rfl)⟩
  · exact ⟨-1, by simp, by simp, Or.inl rfl⟩
  · refine ⟨-c, by simpa using hc2, by simpa using hc1, ?_⟩
    omega

/-- Witness of C19 at a non-canonical operand and a negative zero. -/
theorem compare_antisymmetric_witness :
    ∃ c : Int, BigInt_compare ⟨false, [0, 0, 77], 2, 3⟩ ⟨true, [0], 1, 1⟩ = .ok c ∧
      BigInt_compare ⟨true, [0], 1, 1⟩ ⟨false, [0, 0, 77], 2, 3⟩ = .ok (-c) ∧
      (c = -1 ∨ c = 0 ∨ c = 1) :=
  compare_antisymmetric ⟨false, [0, 0, 77], 2, 3⟩ ⟨true, [0], 1, 1⟩ (by decide) (by decide)

end BigIntC
